import Mathlib

/-!
Verification of the onyx-ssi-sdk credential core against its specification.

The development shallowly embeds the TypeScript source:

* `RevocationList` (revocation/revocation.ts): the 128000-bit revocation
  bitmap, its bit addressing, bounds behaviour, and its gzip/base64
  serialization round-trip.
* `selective-disclosure.ts`: the SD-JWT disclosure codec
  (`encodeDisclosure`/`parseDisclosure`), issuance (`createDisclosures`),
  digesting (`hashDisclosure`), and presentation (`discloseClaims`).
* `credential.ts`: the StatusList2021 revoke flow (`revokeCredentialSL21`).

JavaScript semantics are modelled explicitly: machine `number` indices are
`Int` with `Math.floor` division as `Int.fdiv` and `%` as `Int.tmod`;
out-of-bounds typed-array reads yield `none` (JS `undefined`); mixing
`undefined` with a `BigInt` operator is a `TypeError`.  External libraries
(node `crypto` digests, `pako` gzip, `btoa`/`Buffer` base64) are abstract
function parameters; everything the repository itself computes is embedded
concretely and executably.
-/

namespace OnyxSSI

/-- Observable failure kinds of the modelled JavaScript code paths. -/
inductive JsError where
  /-- `throw new Error("[Revocation error] - index out of range")` -/
  | indexOutOfRange
  /-- JS `TypeError` raised when `undefined` meets a BigInt operator. -/
  | typeError
  deriving DecidableEq, Repr

namespace RevocationList

/-- `static SIZE = 2000` -/
def SIZE : Nat := 2000

/-- `static SIZE_PER_INDEX = 64` -/
def SIZE_PER_INDEX : Nat := 64

/-- Result record of `getBitArrayValues`: `{ arrayValue, mask, arrayIndex }`. -/
structure BitArrayValues where
  /-- `this.bitArray[arrayIndex]`; `none` models the JS `undefined` produced
  by an out-of-bounds typed-array read. -/
  arrayValue : Option Nat
  /-- `BigInt(1) << BigInt(bitIndex)`; a negative shift count shifts right,
  so the mask collapses to `0`. -/
  mask : Nat
  /-- `SIZE - 1 - Math.floor(index / SIZE_PER_INDEX)` -/
  arrayIndex : Int
  deriving DecidableEq, Repr

/-- `getBitArrayValues(index)`.  The `bitArray : BigUint64Array` is modelled
as a `List Nat` of words; `index` is an integral JS number, so
`Math.floor(index / 64)` is `Int.fdiv` and `index % 64` is `Int.tmod`. -/
def getBitArrayValues (bitArray : List Nat) (index : Int) : BitArrayValues :=
  let arrayIndex : Int := (SIZE : Int) - 1 - Int.fdiv index (SIZE_PER_INDEX : Int)
  let arrayValue : Option Nat :=
    if 0 ≤ arrayIndex then bitArray[arrayIndex.toNat]? else none
  let bitIndex : Int := Int.tmod index (SIZE_PER_INDEX : Int)
  let mask : Nat := if 0 ≤ bitIndex then 1 <<< bitIndex.toNat else 0
  ⟨arrayValue, mask, arrayIndex⟩

/-- `getCredentialStatus(index)`: `(arrayValue & mask) == mask`.  When the
word read was `undefined`, the `&` throws a `TypeError`. -/
def getCredentialStatus (bitArray : List Nat) (index : Int) :
    Except JsError Bool :=
  let v := getBitArrayValues bitArray index
  match v.arrayValue with
  | none => .error .typeError
  | some w => .ok (decide ((w &&& v.mask) = v.mask))

/-- `revokeCredential(index)`: guard `index > SIZE * SIZE_PER_INDEX` and
`index < 0`, then `bitArray[arrayIndex] = arrayValue | mask`.  When the word
read was `undefined`, the `|` throws a `TypeError` before any write. -/
def revokeCredential (bitArray : List Nat) (index : Int) :
    Except JsError (List Nat) :=
  if (SIZE : Int) * (SIZE_PER_INDEX : Int) < index then .error .indexOutOfRange
  else if index < 0 then .error .indexOutOfRange
  else
    let v := getBitArrayValues bitArray index
    match v.arrayValue with
    | none => .error .typeError
    | some w => .ok (bitArray.set v.arrayIndex.toNat (w ||| v.mask))

/-- `new RevocationList()`: a zero-initialized 2000-word vector. -/
def freshBitArray : List Nat := List.replicate SIZE 0

end RevocationList

section RevocationLemmas

open RevocationList

/-- For an in-range index the floor-division addressing lands inside the
word array. -/
theorem fdiv_in_range {i : Int} (h0 : 0 ≤ i) (h1 : i < 128000) :
    Int.fdiv i 64 = i / 64 ∧ 0 ≤ i / 64 ∧ i / 64 < 2000 := by
  refine ⟨Int.fdiv_eq_ediv _ (by norm_num), ?_, ?_⟩ <;> omega

/-- `Int.tmod` and `Int.emod` agree on nonnegative dividends. -/
theorem tmod_nonneg_eq {i : Int} (h0 : 0 ≤ i) :
    Int.tmod i 64 = i % 64 := by
  rw [Int.tmod_eq_emod h0 (by norm_num)]

/-- A word-level status test is a `testBit`. -/
theorem and_shift_eq_iff (w b : Nat) :
    ((w &&& (1 <<< b)) = 1 <<< b) ↔ w.testBit b := by
  rw [Nat.shiftLeft_eq, one_mul, Nat.and_two_pow]
  rcases h : w.testBit b with _ | _
  · simpa using (Nat.two_pow_pos b).ne
  · simp

/-- Word address of logical bit `i`: `SIZE - 1 - ⌊i / 64⌋` as a `Nat`. -/
def wordIdx (i : Int) : Nat := (2000 - 1 - i / 64).toNat

/-- Bit address of logical bit `i` inside its word: `i % 64` as a `Nat`. -/
def bitIdx (i : Int) : Nat := (i % 64).toNat

theorem wordIdx_lt {i : Int} (h0 : 0 ≤ i) (h1 : i < 128000) :
    wordIdx i < 2000 := by
  unfold wordIdx; omega

/-- Unfolding `getBitArrayValues` on an in-range index. -/
theorem getBitArrayValues_in_range (L : List Nat) {i : Int}
    (h0 : 0 ≤ i) (h1 : i < 128000) :
    getBitArrayValues L i =
      ⟨L[wordIdx i]?, 1 <<< bitIdx i, 2000 - 1 - i / 64⟩ := by
  have hf : Int.fdiv i 64 = i / 64 := Int.fdiv_eq_ediv _ (by norm_num)
  have ht : Int.tmod i 64 = i % 64 := tmod_nonneg_eq h0
  unfold getBitArrayValues
  dsimp only
  simp only [SIZE, SIZE_PER_INDEX, Nat.cast_ofNat, hf, ht]
  rw [if_pos (show (0:Int) ≤ 2000 - 1 - i / 64 by omega),
      if_pos (show (0:Int) ≤ i % 64 by omega)]
  rfl

/-- `decide`-level form of the status test. -/
theorem status_eq_testBit (w b : Nat) :
    decide ((w &&& (1 <<< b)) = 1 <<< b) = w.testBit b := by
  rcases h : w.testBit b with _ | _
  · simp [and_shift_eq_iff, h]
  · simp [and_shift_eq_iff, h]

/-- `getCredentialStatus` on an in-range index is a `testBit` of the
addressed word. -/
theorem getCredentialStatus_in_range (L : List Nat) {i : Int}
    (h0 : 0 ≤ i) (h1 : i < 128000) {w : Nat} (hw : L[wordIdx i]? = some w) :
    getCredentialStatus L i = .ok (w.testBit (bitIdx i)) := by
  unfold getCredentialStatus
  rw [getBitArrayValues_in_range L h0 h1]
  simp [hw, status_eq_testBit]

/-- `revokeCredential` on an in-range index ORs the mask into the addressed
word. -/
theorem revokeCredential_in_range (L : List Nat) {i : Int}
    (h0 : 0 ≤ i) (h1 : i < 128000) {w : Nat} (hw : L[wordIdx i]? = some w) :
    revokeCredential L i = .ok (L.set (wordIdx i) (w ||| 1 <<< bitIdx i)) := by
  have hg1 : ¬ ((SIZE : Int) * (SIZE_PER_INDEX : Int) < i) := by
    simp only [SIZE, SIZE_PER_INDEX]; push_cast; omega
  have hg2 : ¬ (i < 0) := by omega
  unfold revokeCredential
  rw [if_neg hg1, if_neg hg2, getBitArrayValues_in_range L h0 h1]
  simp only [hw]
  have : ((2000:Int) - 1 - i / 64).toNat = wordIdx i := rfl
  rw [this]

theorem addr_inj {i j : Int} (h0i : 0 ≤ i) (h1i : i < 128000)
    (h0j : 0 ≤ j) (h1j : j < 128000)
    (hw : wordIdx i = wordIdx j) (hb : bitIdx i = bitIdx j) : i = j := by
  unfold wordIdx bitIdx at *; omega

theorem testBit_or_self (w b : Nat) : (w ||| 1 <<< b).testBit b = true := by
  simp [Nat.testBit_or, Nat.shiftLeft_eq, Nat.testBit_two_pow_self]

theorem testBit_or_ne (w b b' : Nat) (h : b ≠ b') :
    (w ||| 1 <<< b).testBit b' = w.testBit b' := by
  simp [Nat.testBit_or, Nat.shiftLeft_eq, Nat.testBit_two_pow_of_ne h]

theorem freshBitArray_length : freshBitArray.length = 2000 := by
  rw [freshBitArray, List.length_replicate, SIZE]

/-- Writing back the value already stored is a no-op. -/
theorem set_getElem?_self : ∀ (l : List Nat) (k : Nat) (v : Nat),
    l[k]? = some v → l.set k v = l
  | [], _, _, h => by simp at h
  | a :: l, 0, v, h => by simp at h; simp [h]
  | a :: l, k + 1, v, h => by
      simp at h
      simp [set_getElem?_self l k v h]

end RevocationLemmas

section RevocationClaims

open RevocationList

/-- **C2.** The range guard reads `index > SIZE * SIZE_PER_INDEX`, so
`index = 128000` slips through; the word address becomes `-1`, the typed
array read yields `undefined`, and `undefined | mask` throws a JS
`TypeError` — not the `IndexOutOfRange` error the claim (and the code's own
error message) promises.  The bit vector is not modified (the call fails
before the write). -/
theorem C2_revoke_at_capacity_is_type_error :
    revokeCredential freshBitArray 128000 = .error .typeError ∧
    JsError.typeError ≠ JsError.indexOutOfRange := by
  exact ⟨rfl, by simp⟩

/-- **C9.** For every in-range index `i`, `revokeCredential i` succeeds; the
resulting list still has 2000 words; `getCredentialStatus i` reads `true`;
every other in-range index reads unchanged; revoking `i` again returns the
very same list; and bits only ever go from 0 to 1 (every bit that read
`true` before still reads `true`). -/
theorem C9_revoke_sets_bit_frame_idempotent (L : List Nat) (i : Int)
    (hL : L.length = 2000) (h0 : 0 ≤ i) (h1 : i < 128000) :
    ∃ L', revokeCredential L i = .ok L' ∧
      L'.length = 2000 ∧
      getCredentialStatus L' i = .ok true ∧
      (∀ j : Int, 0 ≤ j → j < 128000 → j ≠ i →
        getCredentialStatus L' j = getCredentialStatus L j) ∧
      revokeCredential L' i = .ok L' ∧
      (∀ j : Int, 0 ≤ j → j < 128000 →
        getCredentialStatus L j = .ok true →
        getCredentialStatus L' j = .ok true) := by
  have hwl : wordIdx i < L.length := by rw [hL]; exact wordIdx_lt h0 h1
  obtain ⟨w, hw⟩ : ∃ w, L[wordIdx i]? = some w :=
    ⟨L[wordIdx i], List.getElem?_eq_getElem hwl⟩
  set L' := L.set (wordIdx i) (w ||| 1 <<< bitIdx i) with hL'
  have hlen : L'.length = 2000 := by rw [hL', List.length_set, hL]
  have hrd : L'[wordIdx i]? = some (w ||| 1 <<< bitIdx i) :=
    List.getElem?_set_self hwl
  -- status of an arbitrary in-range j in the updated list
  have hstat : ∀ j : Int, 0 ≤ j → j < 128000 → ∃ wj,
      L[wordIdx j]? = some wj ∧
      getCredentialStatus L j = .ok (wj.testBit (bitIdx j)) ∧
      (j ≠ i → getCredentialStatus L' j = .ok (wj.testBit (bitIdx j))) := by
    intro j hj0 hj1
    have hwlj : wordIdx j < L.length := by rw [hL]; exact wordIdx_lt hj0 hj1
    refine ⟨L[wordIdx j], List.getElem?_eq_getElem hwlj,
      getCredentialStatus_in_range L hj0 hj1 (List.getElem?_eq_getElem hwlj), ?_⟩
    intro hne
    by_cases hword : wordIdx i = wordIdx j
    · have hbit : bitIdx i ≠ bitIdx j := by
        intro hb; exact hne (addr_inj hj0 hj1 h0 h1 hword.symm hb.symm)
      have hrdj : L'[wordIdx j]? = some (w ||| 1 <<< bitIdx i) := by
        rw [← hword]; exact hrd
      have hLj : L[wordIdx j] = w := by
        have h2 : some L[wordIdx j] = some w := by
          rw [← List.getElem?_eq_getElem hwlj, ← hword]; exact hw
        exact Option.some.inj h2
      rw [getCredentialStatus_in_range L' hj0 hj1 hrdj,
          testBit_or_ne w (bitIdx i) (bitIdx j) hbit, hLj]
    · have hrdj : L'[wordIdx j]? = L[wordIdx j]? := List.getElem?_set_ne hword
      rw [getCredentialStatus_in_range L' hj0 hj1
        (by rw [hrdj]; exact List.getElem?_eq_getElem hwlj)]
  refine ⟨L', revokeCredential_in_range L h0 h1 hw, hlen, ?_, ?_, ?_, ?_⟩
  · rw [getCredentialStatus_in_range L' h0 h1 hrd, testBit_or_self]
  · intro j hj0 hj1 hne
    obtain ⟨wj, _, hsL, hsL'⟩ := hstat j hj0 hj1
    rw [hsL, hsL' hne]
  · have hrevoke := revokeCredential_in_range L' h0 h1 hrd
    rw [hrevoke]
    have : (w ||| 1 <<< bitIdx i) ||| 1 <<< bitIdx i = w ||| 1 <<< bitIdx i := by
      rw [Nat.or_assoc, Nat.or_self]
    rw [this, set_getElem?_self L' (wordIdx i) _ hrd]
  · intro j hj0 hj1 htrue
    by_cases hne : j = i
    · subst hne
      rw [getCredentialStatus_in_range L' hj0 hj1 hrd, testBit_or_self]
    · obtain ⟨wj, _, hsL, hsL'⟩ := hstat j hj0 hj1
      rw [hsL] at htrue
      rw [hsL' hne]
      exact htrue

/-- Witness for C9 at the concrete input `freshBitArray`, `i = 5`. -/
theorem C9_witness :
    ∃ L', revokeCredential freshBitArray 5 = .ok L' ∧
      L'.length = 2000 ∧
      getCredentialStatus L' 5 = .ok true ∧
      (∀ j : Int, 0 ≤ j → j < 128000 → j ≠ 5 →
        getCredentialStatus L' j = getCredentialStatus freshBitArray j) ∧
      revokeCredential L' 5 = .ok L' ∧
      (∀ j : Int, 0 ≤ j → j < 128000 →
        getCredentialStatus freshBitArray j = .ok true →
        getCredentialStatus L' j = .ok true) :=
  C9_revoke_sets_bit_frame_idempotent freshBitArray 5
    freshBitArray_length (by norm_num) (by norm_num)

/-- **C10.** `getCredentialStatus` has no bounds check: for every index
outside `[0, 128000)` the computed word index lies outside the 2000-word
array, the read yields no value (JS `undefined`), and the bitmask test
throws a `TypeError` — never a boolean, never `IndexOutOfRange`. -/
theorem C10_status_out_of_range (L : List Nat) (hL : L.length = 2000)
    (i : Int) (h : i < 0 ∨ 128000 ≤ i) :
    ((getBitArrayValues L i).arrayIndex < 0 ∨
      2000 ≤ (getBitArrayValues L i).arrayIndex) ∧
    (getBitArrayValues L i).arrayValue = none ∧
    getCredentialStatus L i = .error .typeError := by
  have hf : Int.fdiv i 64 = i / 64 := Int.fdiv_eq_ediv _ (by norm_num)
  have hidx : (getBitArrayValues L i).arrayIndex = 2000 - 1 - i / 64 := by
    unfold getBitArrayValues
    simp only [SIZE, SIZE_PER_INDEX, Nat.cast_ofNat, hf]
  have hrange : (2000 - 1 - i / 64 < 0) ∨ ((2000:Int) ≤ 2000 - 1 - i / 64) := by
    omega
  have hval : (getBitArrayValues L i).arrayValue = none := by
    unfold getBitArrayValues
    simp only [SIZE, SIZE_PER_INDEX, Nat.cast_ofNat, hf]
    rcases hrange with hneg | hbig
    · rw [if_neg (by omega)]
    · rw [if_pos (by omega)]
      exact List.getElem?_eq_none (by omega)
  refine ⟨by rw [hidx]; exact hrange, hval, ?_⟩
  unfold getCredentialStatus
  dsimp only
  rw [hval]

/-- Witness for C10 at the concrete out-of-range indices `-1` and `128000`. -/
theorem C10_witness :
    (getBitArrayValues freshBitArray (-1)).arrayValue = none ∧
    getCredentialStatus freshBitArray (-1) = .error .typeError ∧
    getCredentialStatus freshBitArray 128000 = .error .typeError := by
  obtain ⟨-, h1, h2⟩ := C10_status_out_of_range freshBitArray
    freshBitArray_length (-1) (Or.inl (by norm_num))
  obtain ⟨-, -, h3⟩ := C10_status_out_of_range freshBitArray
    freshBitArray_length 128000 (Or.inr (by norm_num))
  exact ⟨h1, h2, h3⟩

end RevocationClaims

namespace RevocationList

/-- Little-endian byte serialization of one 64-bit word (8 bytes), as laid
out in the `BigUint64Array`'s backing `ArrayBuffer`. -/
def wordToBytesLE (w : Nat) : List Nat :=
  [w % 256, w / 256 % 256, w / 256 ^ 2 % 256, w / 256 ^ 3 % 256,
   w / 256 ^ 4 % 256, w / 256 ^ 5 % 256, w / 256 ^ 6 % 256, w / 256 ^ 7 % 256]

/-- `input.bitArray.buffer`: the contiguous bytes of all words. -/
def wordsToBytesLE (ws : List Nat) : List Nat := ws.flatMap wordToBytesLE

/-- `new BigUint64Array(buffer)`: reinterpret the byte buffer as 64-bit
words, 8 bytes at a time (a trailing group shorter than 8 bytes would make
the constructor throw, so it contributes nothing). -/
def bytesToWordsLE : List Nat → List Nat
  | b0 :: b1 :: b2 :: b3 :: b4 :: b5 :: b6 :: b7 :: rest =>
      (b0 + 256 * b1 + 256 ^ 2 * b2 + 256 ^ 3 * b3 + 256 ^ 4 * b4 +
        256 ^ 5 * b5 + 256 ^ 6 * b6 + 256 ^ 7 * b7) :: bytesToWordsLE rest
  | _ => []

/-- A `RevocationList` instance: just its `bitArray` words. -/
structure Obj where
  bitArray : List Nat
  deriving DecidableEq, Repr

/-- `RevocationList.stringify(input)`: gzip the word buffer, then
base64-encode.  `pako.gzip` and `btoa ∘ String.fromCharCode` are external
libraries and are passed as abstract functions. -/
def stringify (gzip : List Nat → List Nat) (btoa : List Nat → String)
    (input : Obj) : String :=
  btoa (gzip (wordsToBytesLE input.bitArray))

/-- `RevocationList.parse(input)`: base64-decode (`Buffer.from(input,
"base64")`), `pako.ungzip`, reinterpret as 64-bit words. -/
def parse (ungzip : List Nat → List Nat) (fromBase64 : String → List Nat)
    (input : String) : Obj :=
  ⟨bytesToWordsLE (ungzip (fromBase64 input))⟩

end RevocationList

section SerializationLemmas

open RevocationList

/-- Every byte emitted by the little-endian word layout is below 256. -/
theorem wordsToBytesLE_bytes (ws : List Nat) :
    ∀ b ∈ wordsToBytesLE ws, b < 256 := by
  intro b hb
  rw [wordsToBytesLE, List.mem_flatMap] at hb
  obtain ⟨w, -, hmem⟩ := hb
  unfold wordToBytesLE at hmem
  simp only [List.mem_cons, List.not_mem_nil, or_false] at hmem
  rcases hmem with h | h | h | h | h | h | h | h <;> subst h <;> omega

/-- Reinterpreting the little-endian bytes of 64-bit words recovers the
words. -/
theorem bytesToWordsLE_wordsToBytesLE :
    ∀ ws : List Nat, (∀ w ∈ ws, w < 2 ^ 64) →
      bytesToWordsLE (wordsToBytesLE ws) = ws
  | [], _ => rfl
  | w :: rest, h => by
      have hw : w < 2 ^ 64 := h w (List.mem_cons_self w rest)
      have ih := bytesToWordsLE_wordsToBytesLE rest
        (fun x hx => h x (List.mem_cons_of_mem w hx))
      simp only [wordsToBytesLE, List.flatMap_cons] at ih ⊢
      rw [wordToBytesLE]
      show (w % 256 + 256 * (w / 256 % 256) + 256 ^ 2 * (w / 256 ^ 2 % 256) +
        256 ^ 3 * (w / 256 ^ 3 % 256) + 256 ^ 4 * (w / 256 ^ 4 % 256) +
        256 ^ 5 * (w / 256 ^ 5 % 256) + 256 ^ 6 * (w / 256 ^ 6 % 256) +
        256 ^ 7 * (w / 256 ^ 7 % 256)) :: bytesToWordsLE _ = w :: rest
      have hnil : ([].append (rest.flatMap wordToBytesLE) : List Nat)
          = rest.flatMap wordToBytesLE := rfl
      rw [hnil, ih]
      congr 1
      omega

end SerializationLemmas

section SerializationClaims

open RevocationList

/-- **C8.** Serialization round-trip: with the external gzip and base64
codecs behaving as inverse pairs on byte lists, `parse (stringify L)`
recovers `L`'s 64-bit word vector byte-for-byte. -/
theorem C8_parse_stringify_roundtrip
    (gzip ungzip : List Nat → List Nat) (btoa : List Nat → String)
    (fromBase64 : String → List Nat)
    (hgzip : ∀ bs, (∀ b ∈ bs, b < 256) → ungzip (gzip bs) = bs)
    (hb64 : ∀ bs, (∀ b ∈ bs, b < 256) → fromBase64 (btoa bs) = bs)
    (hgzipBytes : ∀ bs, (∀ b ∈ bs, b < 256) → ∀ b ∈ gzip bs, b < 256)
    (L : Obj) (hbound : ∀ w ∈ L.bitArray, w < 2 ^ 64) :
    parse ungzip fromBase64 (stringify gzip btoa L) = L := by
  unfold parse stringify
  rw [hb64 _ (hgzipBytes _ (wordsToBytesLE_bytes L.bitArray)),
      hgzip _ (wordsToBytesLE_bytes L.bitArray),
      bytesToWordsLE_wordsToBytesLE L.bitArray hbound]

/-- Witness for C8: the identity gzip pair and a characterwise base64 stub
satisfy the inverse laws, and the round-trip holds at the concrete
zero-initialized list with bit 42 revoked. -/
theorem C8_witness :
    (∀ bs : List Nat, (∀ b ∈ bs, b < 256) → id (id bs) = bs) ∧
    (∀ bs : List Nat, (∀ b ∈ bs, b < 256) →
      (fun s : String => s.data.map Char.toNat)
        ((fun bs : List Nat => String.mk (bs.map Char.ofNat)) bs) = bs) ∧
    parse id (fun s : String => s.data.map Char.toNat)
      (stringify id (fun bs : List Nat => String.mk (bs.map Char.ofNat))
        ⟨freshBitArray.set 1999 (1 <<< 42)⟩) =
      ⟨freshBitArray.set 1999 (1 <<< 42)⟩ := by
  have hdec : ∀ bs : List Nat, (∀ b ∈ bs, b < 256) →
      (fun s : String => s.data.map Char.toNat)
        ((fun bs : List Nat => String.mk (bs.map Char.ofNat)) bs) = bs := by
    intro bs hbs
    simp only [List.map_map]
    have : ∀ b ∈ bs, (Char.toNat ∘ Char.ofNat) b = id b := by
      intro b hb
      have hv : Nat.isValidChar b := Or.inl (by have := hbs b hb; omega)
      show (Char.ofNat b).toNat = b
      unfold Char.ofNat
      rw [dif_pos hv]
      rfl
    rw [List.map_congr_left this, List.map_id]
  refine ⟨fun bs _ => rfl, hdec, ?_⟩
  apply C8_parse_stringify_roundtrip
  · exact fun bs _ => rfl
  · exact hdec
  · exact fun bs h => h
  · intro w hw
    rcases List.mem_or_eq_of_mem_set hw with h | h
    · rw [freshBitArray] at h
      have := List.eq_of_mem_replicate h
      omega
    · subst h
      rw [Nat.shiftLeft_eq]
      norm_num

end SerializationClaims

namespace CredentialIssuer

/-- The `credentialStatus` property of a credential object. -/
structure CredentialStatus where
  type : String
  id : String
  deriving DecidableEq, Repr

/-- A `VerifiableCredential` as consumed by `revokeCredentialSL21`: a JWT
string or a credential object (whose `credentialStatus` may be absent). -/
inductive VerifiableCredential where
  | jwtString (s : String)
  | obj (credentialStatus : Option CredentialStatus)
  deriving DecidableEq, Repr

/-- Eventual value of the `.then/.catch` chain spawned inside
`revokeCredentialSL21`: `true` when the fetch, parse, `revokeCredential`
and re-publish POST all succeed, `false` when any step throws (the
`.catch` swallows the error and yields `false`).  The promise is bound to
the unused local `_result` and never awaited. -/
def sl21ChainResult (flowSucceeds : Bool) : Bool :=
  if flowSucceeds then true else false

/-- `revokeCredentialSL21(vc, issuerDID, subjectDID)`.  After the
`typeof vc !== "string"` and `credentialStatus.type == "StatusList2021Entry"`
guards, the function fires the async revoke chain, discards its promise,
and falls through to the synchronous `return false`. -/
def revokeCredentialSL21 (vc : VerifiableCredential)
    (issuerDID subjectDID : String) (flowSucceeds : Bool) : Bool :=
  match vc with
  | .jwtString _ => false
  | .obj none => false
  | .obj (some cs) =>
      if cs.type = "StatusList2021Entry" then
        let _result := sl21ChainResult flowSucceeds
        false
      else false

end CredentialIssuer

section RevokeFlowClaims

open CredentialIssuer

/-- **C1.** `revokeCredentialSL21` returns `false` unconditionally — even
for a well-formed `StatusList2021Entry` credential whose whole
fetch-revoke-republish chain succeeds (second conjunct: the discarded
chain's value would have been `true`).  This contradicts both the claim and
the function's own doc comment, which promise `true` on success. -/
theorem C1_revokeCredentialSL21_always_false :
    (∀ (vc : VerifiableCredential) (issuerDID subjectDID : String)
      (flowSucceeds : Bool),
      revokeCredentialSL21 vc issuerDID subjectDID flowSucceeds = false) ∧
    revokeCredentialSL21
      (.obj (some ⟨"StatusList2021Entry", "https://example.com/status/1#5"⟩))
      "did:ex:issuer" "did:ex:subject" true = false ∧
    sl21ChainResult true = true := by
    refine ⟨?_, rfl, rfl⟩
    intro vc issuerDID subjectDID flowSucceeds
    rcases vc with s | cs
    · rfl
    · rcases cs with _ | c
      · rfl
      · by_cases h : c.type = "StatusList2021Entry" <;>
          simp [revokeCredentialSL21, h]

end RevokeFlowClaims

namespace SelectiveDisclosure

/-- A JavaScript claim value as handled by `createDisclosures` and by
`JSON.stringify`/`JSON.parse`.  JSON numbers are modelled as integers.
`vstrArr` is a string array (the shape of the `_sd` digest array); `vobj`
is an opaque non-array object, tagged only so distinct objects stay
distinct. -/
inductive JsValue where
  | vstr (s : String)
  | vnum (n : Int)
  | vbool (b : Bool)
  | vnull
  | vstrArr (elems : List String)
  | vobj (tag : Nat)
  deriving DecidableEq, Repr

/-- `typeof v === 'object'` — true for objects, arrays **and** `null`. -/
def typeofObject : JsValue → Bool
  | .vnull => true
  | .vstrArr _ => true
  | .vobj _ => true
  | _ => false

/-- The primitive JSON values of the specification: string, number,
boolean, null. -/
def isPrimitive : JsValue → Bool
  | .vstr _ => true
  | .vnum _ => true
  | .vbool _ => true
  | .vnull => true
  | _ => false

/-- Error kinds of the embedded selective-disclosure code paths. -/
inductive SDError where
  /-- `throw new Error("Not yet implemented")` in `createDisclosures`. -/
  | nestedNotSupported
  /-- `throw new Error("can't parse disclosure: ...")`, or a decode/parse
  failure inside `parseDisclosure`. -/
  | malformedDisclosure
  /-- `throw new Error("No Disclosures found in SD-JWT")`. -/
  | noDisclosures
  deriving DecidableEq, Repr

/-- Lowercase hex digit, as emitted by `JSON.stringify` in `\u00XX`
escapes. -/
def hexDigit (n : Nat) : Char :=
  if n < 10 then Char.ofNat (48 + n) else Char.ofNat (87 + n)

/-- `JSON.stringify` escaping of one character: `"`, `\`, the five control
shortcuts, `\u00XX` for other controls, everything else literal. -/
def escapeChar (c : Char) : List Char :=
  if c = Char.ofNat 34 then [Char.ofNat 92, Char.ofNat 34]
  else if c = Char.ofNat 92 then [Char.ofNat 92, Char.ofNat 92]
  else if c.toNat = 8 then [Char.ofNat 92, 'b']
  else if c.toNat = 9 then [Char.ofNat 92, 't']
  else if c.toNat = 10 then [Char.ofNat 92, 'n']
  else if c.toNat = 12 then [Char.ofNat 92, 'f']
  else if c.toNat = 13 then [Char.ofNat 92, 'r']
  else if c.toNat < 32 then
    [Char.ofNat 92, 'u', '0', '0', hexDigit (c.toNat / 16), hexDigit (c.toNat % 16)]
  else [c]

/-- A JSON string literal: quoted, characterwise-escaped body. -/
def quoteString (s : String) : List Char :=
  Char.ofNat 34 :: (s.data.flatMap escapeChar ++ [Char.ofNat 34])

/-- Decimal digits of `n`, most significant first, fuel-structured so the
kernel can evaluate it (`natDigits` supplies sufficient fuel). -/
def natDigitsAux : Nat → Nat → List Char
  | 0, _ => []
  | fuel + 1, n =>
      if n < 10 then [Char.ofNat (48 + n)]
      else natDigitsAux fuel (n / 10) ++ [Char.ofNat (48 + n % 10)]

/-- `String(n)` for a nonnegative integer: plain decimal digits. -/
def natDigits (n : Nat) : List Char := natDigitsAux (n + 1) n

/-- Comma-join, as `JSON.stringify` does between array elements. -/
def joinComma : List (List Char) → List Char
  | [] => []
  | [x] => x
  | x :: xs => x ++ ',' :: joinComma xs

/-- `JSON.stringify` of a single claim value (compact — no whitespace).
An opaque `vobj` prints as `{}`; issuance rejects `typeof 'object'` values
before ever serializing them, so this case is unreachable from the
embedded flows. -/
def jsonStringifyValue : JsValue → List Char
  | .vstr s => quoteString s
  | .vnum n => if n < 0 then '-' :: natDigits (-n).toNat else natDigits n.toNat
  | .vbool true => ['t', 'r', 'u', 'e']
  | .vbool false => ['f', 'a', 'l', 's', 'e']
  | .vnull => ['n', 'u', 'l', 'l']
  | .vstrArr es => '[' :: (joinComma (es.map quoteString) ++ [']'])
  | .vobj _ => ['{', '}']

/-- `JSON.stringify(disclosureArray)` for the flat disclosure array. -/
def jsonStringifyArr (vs : List JsValue) : List Char :=
  '[' :: (joinComma (vs.map jsonStringifyValue) ++ [']'])

/-- UTF-8 bytes of one character (`TextEncoder`, as used by
`jose.base64url.encode` on strings). -/
def utf8Char (c : Char) : List Nat :=
  let v := c.toNat
  if v < 0x80 then [v]
  else if v < 0x800 then [0xC0 + v / 64, 0x80 + v % 64]
  else if v < 0x10000 then
    [0xE0 + v / 4096, 0x80 + v / 64 % 64, 0x80 + v % 64]
  else [0xF0 + v / 262144, 0x80 + v / 4096 % 64, 0x80 + v / 64 % 64,
    0x80 + v % 64]

/-- UTF-8 bytes of a character sequence. -/
def utf8Encode (s : List Char) : List Nat := s.flatMap utf8Char

/-- One UTF-8-encoded scalar from the front of a byte stream: the decoded
character and the remaining bytes. -/
def utf8DecodeStep (l : List Nat) : Option (Char × List Nat) :=
  match l with
  | [] => none
  | b0 :: rest =>
    if b0 < 0x80 then some (Char.ofNat b0, rest)
    else if 0xC2 ≤ b0 ∧ b0 < 0xE0 then
      match rest with
      | b1 :: rest1 =>
        if 0x80 ≤ b1 ∧ b1 < 0xC0 then
          some (Char.ofNat ((b0 - 0xC0) * 64 + (b1 - 0x80)), rest1)
        else none
      | [] => none
    else if 0xE0 ≤ b0 ∧ b0 < 0xF0 then
      match rest with
      | b1 :: b2 :: rest2 =>
        if (0x80 ≤ b1 ∧ b1 < 0xC0) ∧ (0x80 ≤ b2 ∧ b2 < 0xC0) then
          some (Char.ofNat
            ((b0 - 0xE0) * 4096 + (b1 - 0x80) * 64 + (b2 - 0x80)), rest2)
        else none
      | _ => none
    else if 0xF0 ≤ b0 ∧ b0 < 0xF8 then
      match rest with
      | b1 :: b2 :: b3 :: rest3 =>
        if (0x80 ≤ b1 ∧ b1 < 0xC0) ∧ (0x80 ≤ b2 ∧ b2 < 0xC0) ∧
            (0x80 ≤ b3 ∧ b3 < 0xC0) then
          some (Char.ofNat
            ((b0 - 0xF0) * 262144 + (b1 - 0x80) * 4096 +
              (b2 - 0x80) * 64 + (b3 - 0x80)), rest3)
        else none
      | _ => none
    else none

/-- Fuel-structured UTF-8 decoding loop; every step consumes at least one
byte, so fuel `l.length` suffices. -/
def utf8DecodeAux : Nat → List Nat → Option (List Char)
  | _, [] => some []
  | 0, _ :: _ => none
  | fuel + 1, b :: rest =>
    match utf8DecodeStep (b :: rest) with
    | none => none
    | some (c, rest2) => (utf8DecodeAux fuel rest2).map (fun cs => c :: cs)

/-- UTF-8 decoding (`Buffer.toString()`), on well-formed byte sequences. -/
def utf8Decode (l : List Nat) : Option (List Char) := utf8DecodeAux l.length l

/-- RFC 4648 §5 (base64url) alphabet character for a sextet. -/
def b64Char (n : Nat) : Char :=
  if n < 26 then Char.ofNat (65 + n)
  else if n < 52 then Char.ofNat (97 + (n - 26))
  else if n < 62 then Char.ofNat (48 + (n - 52))
  else if n = 62 then '-' else '_'

/-- Inverse of the base64url alphabet. -/
def b64Dec (c : Char) : Option Nat :=
  let v := c.toNat
  if 65 ≤ v ∧ v ≤ 90 then some (v - 65)
  else if 97 ≤ v ∧ v ≤ 122 then some (v - 97 + 26)
  else if 48 ≤ v ∧ v ≤ 57 then some (v - 48 + 52)
  else if c = '-' then some 62
  else if c = '_' then some 63
  else none

/-- Unpadded base64url encoding of a byte list (`jose.base64url.encode`). -/
def b64urlEncode : List Nat → List Char
  | [] => []
  | [a] => [b64Char (a / 4), b64Char (a % 4 * 16)]
  | [a, b] =>
      [b64Char (a / 4), b64Char (a % 4 * 16 + b / 16), b64Char (b % 16 * 4)]
  | a :: b :: c :: rest =>
      b64Char (a / 4) :: b64Char (a % 4 * 16 + b / 16) ::
      b64Char (b % 16 * 4 + c / 64) :: b64Char (c % 64) :: b64urlEncode rest

/-- Unpadded base64url decoding (`jose.base64url.decode`); a malformed
input yields `none`. -/
def b64urlDecode : List Char → Option (List Nat)
  | [] => some []
  | [_] => none
  | [c1, c2] => do
      let n1 ← b64Dec c1
      let n2 ← b64Dec c2
      some [n1 * 4 + n2 / 16]
  | [c1, c2, c3] => do
      let n1 ← b64Dec c1
      let n2 ← b64Dec c2
      let n3 ← b64Dec c3
      some [n1 * 4 + n2 / 16, n2 % 16 * 16 + n3 / 4]
  | c1 :: c2 :: c3 :: c4 :: rest => do
      let n1 ← b64Dec c1
      let n2 ← b64Dec c2
      let n3 ← b64Dec c3
      let n4 ← b64Dec c4
      let bs ← b64urlDecode rest
      some ((n1 * 4 + n2 / 16) :: (n2 % 16 * 16 + n3 / 4) :: (n3 % 4 * 64 + n4) :: bs)

/-- `encodeDisclosure(disclosureArray)`:
`jose.base64url.encode(JSON.stringify(disclosureArray))` — JSON-serialize,
UTF-8 encode, base64url. -/
def encodeDisclosure (disclosureArray : List JsValue) : String :=
  ⟨b64urlEncode (utf8Encode (jsonStringifyArr disclosureArray))⟩

/-- Value of a hex digit accepted inside a `\uXXXX` escape. -/
def hexVal (c : Char) : Option Nat :=
  let v := c.toNat
  if 48 ≤ v ∧ v ≤ 57 then some (v - 48)
  else if 97 ≤ v ∧ v ≤ 102 then some (v - 97 + 10)
  else if 65 ≤ v ∧ v ≤ 70 then some (v - 65 + 10)
  else none

/-- One escape sequence after a backslash: the denoted character and the
remaining input. -/
def parseEscape (l : List Char) : Option (Char × List Char) :=
  match l with
  | 'u' :: h1 :: h2 :: h3 :: h4 :: rest2 => do
      let d1 ← hexVal h1
      let d2 ← hexVal h2
      let d3 ← hexVal h3
      let d4 ← hexVal h4
      let n := ((d1 * 16 + d2) * 16 + d3) * 16 + d4
      if Nat.isValidChar n then some (Char.ofNat n, rest2) else none
  | e :: rest2 =>
      if e = Char.ofNat 34 then some (Char.ofNat 34, rest2)
      else if e = Char.ofNat 92 then some (Char.ofNat 92, rest2)
      else if e = '/' then some ('/', rest2)
      else if e = 'b' then some (Char.ofNat 8, rest2)
      else if e = 't' then some (Char.ofNat 9, rest2)
      else if e = 'n' then some (Char.ofNat 10, rest2)
      else if e = 'f' then some (Char.ofNat 12, rest2)
      else if e = 'r' then some (Char.ofNat 13, rest2)
      else none
  | [] => none

/-- Fuel-structured body of a JSON string literal after the opening quote:
characters up to the closing quote, with the escapes `JSON.parse`
accepts. -/
def parseStringBodyAux : Nat → List Char → Option (List Char × List Char)
  | 0, _ => none
  | fuel + 1, l =>
    match l with
    | [] => none
    | c :: rest =>
      if c = Char.ofNat 34 then some ([], rest)
      else if c = Char.ofNat 92 then
        match parseEscape rest with
        | none => none
        | some (u, rest2) =>
            (parseStringBodyAux fuel rest2).map (fun p => (u :: p.1, p.2))
      else if c.toNat < 32 then none
      else (parseStringBodyAux fuel rest).map (fun p => (c :: p.1, p.2))

/-- Body of a JSON string literal after the opening quote. -/
def parseStringBody (l : List Char) : Option (List Char × List Char) :=
  parseStringBodyAux l.length l

/-- Digit test for JSON numerals. -/
def isDigitChar (c : Char) : Bool := decide (48 ≤ c.toNat ∧ c.toNat ≤ 57)

/-- Accumulate a decimal numeral left to right. -/
def parseNatNum (ds : List Char) : Nat :=
  ds.foldl (fun a c => a * 10 + (c.toNat - 48)) 0

/-- A JSON integer numeral with optional leading minus. -/
def parseNumber (l : List Char) : Option (Int × List Char) :=
  match l with
  | [] => none
  | c :: rest =>
    if c = '-' then
      let ds := rest.takeWhile isDigitChar
      if ds.isEmpty then none
      else some (-(parseNatNum ds : Int), rest.dropWhile isDigitChar)
    else
      let ds := (c :: rest).takeWhile isDigitChar
      if ds.isEmpty then none
      else some ((parseNatNum ds : Int), (c :: rest).dropWhile isDigitChar)

/-- One JSON value of the disclosure grammar: a string, an integer
numeral, `true`, `false` or `null`.  This models `JSON.parse` restricted
to the compact grammar `JSON.stringify` emits for disclosure arrays. -/
def parseValue (l : List Char) : Option (JsValue × List Char) :=
  match l with
  | [] => none
  | c :: rest =>
    if c = Char.ofNat 34 then
      (parseStringBody rest).map (fun p => (JsValue.vstr ⟨p.1⟩, p.2))
    else if c = 't' then
      match rest with
      | 'r' :: 'u' :: 'e' :: r => some (.vbool true, r)
      | _ => none
    else if c = 'f' then
      match rest with
      | 'a' :: 'l' :: 's' :: 'e' :: r => some (.vbool false, r)
      | _ => none
    else if c = 'n' then
      match rest with
      | 'u' :: 'l' :: 'l' :: r => some (.vnull, r)
      | _ => none
    else (parseNumber (c :: rest)).map (fun p => (JsValue.vnum p.1, p.2))

/-- Array elements after `[`: values separated by `,`, closed by `]`.
Each element consumes at least one character, so fuel `l.length` always
suffices. -/
def parseElems : Nat → List Char → Option (List JsValue × List Char)
  | 0, _ => none
  | fuel + 1, l => do
      let (v, r) ← parseValue l
      match r with
      | ',' :: r2 => do
          let (vs, r3) ← parseElems fuel r2
          some (v :: vs, r3)
      | ']' :: r2 => some ([v], r2)
      | _ => none

/-- A JSON array document of the disclosure grammar. -/
def parseJsonArray (l : List Char) : Option (List JsValue × List Char) :=
  match l with
  | [] => none
  | c :: rest =>
    if c = '[' then
      match rest with
      | [] => none
      | c2 :: rest2 =>
        if c2 = ']' then some ([], rest2)
        else parseElems (c2 :: rest2).length (c2 :: rest2)
    else none

/-- `JSON.parse` of a complete disclosure-array document: the whole input
must be consumed. -/
def jsonParseArr (l : List Char) : Option (List JsValue) :=
  match parseJsonArray l with
  | some (vs, []) => some vs
  | _ => none

/-- `parseDisclosure(disclosure)`: base64url-decode, view the bytes as a
string (`Buffer.toString()`), `JSON.parse`, and reject unless the parsed
array has length exactly 3. -/
def parseDisclosure (disclosure : String) : Except SDError (List JsValue) :=
  match b64urlDecode disclosure.data with
  | none => .error .malformedDisclosure
  | some bytes =>
    match utf8Decode bytes with
    | none => .error .malformedDisclosure
    | some chars =>
      match jsonParseArr chars with
      | none => .error .malformedDisclosure
      | some parsed =>
        if parsed.length ≠ 3 then .error .malformedDisclosure
        else .ok parsed

/-- `hashAlg.replace('-', '')`: JS `String.replace` with a string pattern
replaces only the first occurrence. -/
def removeFirstHyphen : List Char → List Char
  | [] => []
  | c :: rest => if c = '-' then rest else c :: removeFirstHyphen rest

/-- `ianaToCryptoAlg(hashAlg)`: the two special cases, then
strip-first-hyphen and lowercase. -/
def ianaToCryptoAlg (hashAlg : String) : String :=
  if hashAlg = "ES256K" then "sha256"
  else if hashAlg = "EdDSA" then "sha512"
  else ⟨(removeFirstHyphen hashAlg.data).map Char.toLower⟩

/-- `hashDisclosure(alg, disclosure)`: digest the disclosure string's bytes
with the node `crypto` backend (the digest itself is an external library,
passed as the abstract `digestFn`), then base64url-encode the digest. -/
def hashDisclosure (digestFn : String → List Nat → List Nat)
    (alg : String) (disclosure : String) : String :=
  ⟨b64urlEncode (digestFn (ianaToCryptoAlg alg) (utf8Encode disclosure.data))⟩

/-- `target.vc.credentialSubject` (and the `claimValues` map): a JS object
as an insertion-ordered association list of own properties. -/
abbrev CredentialSubject := List (String × JsValue)

/-- Property lookup `obj[k]`. -/
def lookupKey (obj : CredentialSubject) (k : String) : Option JsValue :=
  (obj.find? (fun p => p.1 = k)).map Prod.snd

/-- `removeKeysFromObject(obj, keysToRemove)`: `delete obj[key]` for each
listed key, other properties untouched and in order. -/
def removeKeysFromObject (obj : CredentialSubject)
    (keysToRemove : List String) : CredentialSubject :=
  obj.filter (fun p => !(keysToRemove.contains p.1))

/-- `Object.defineProperty(obj, k, {value: v, enumerable: true})`: update
the property in place when the key exists, else append it. -/
def defineProperty (obj : CredentialSubject) (k : String) (v : JsValue) :
    CredentialSubject :=
  if obj.any (fun p => p.1 = k) then
    obj.map (fun p => if p.1 = k then (k, v) else p)
  else obj ++ [(k, v)]

/-- `sdDigests.sort()`: JS default sort compares strings (stable,
lexicographic); on the ASCII base64url digests this is bytewise
lexicographic order. -/
def jsSortStrings (l : List String) : List String :=
  l.insertionSort (fun a b => a ≤ b)

/-- The indexed loop of `createDisclosures`: for each hidden claim (paired
with its fresh salt), reject `typeof === 'object'` values, otherwise build
`[base64url(salt), name, value]`, encode it, and digest it. -/
def createDisclosuresLoop (digestFn : String → List Nat → List Nat)
    (hashAlg : String) :
    List ((String × JsValue) × List Nat) →
    Except SDError (List String × List String)
  | [] => .ok ([], [])
  | ((name, value), salt) :: rest =>
      if typeofObject value then .error .nestedNotSupported
      else
        match createDisclosuresLoop digestFn hashAlg rest with
        | .error e => .error e
        | .ok (ds, hs) =>
            let disclosure := encodeDisclosure
              [JsValue.vstr ⟨b64urlEncode salt⟩, JsValue.vstr name, value]
            .ok (disclosure :: ds,
              hashDisclosure digestFn hashAlg disclosure :: hs)

/-- `createDisclosures(hashAlg, claimValues, target)`.  The fresh
16-byte salts (`crypto.randomBytes`, one per claim) come from the ambient
RNG and are passed as an input.  Returns the updated
`credentialSubject` — hidden names deleted, sorted `_sd` installed — and
the disclosures. -/
def createDisclosures (digestFn : String → List Nat → List Nat)
    (hashAlg : String) (claimValues : CredentialSubject)
    (salts : List (List Nat)) (subject : CredentialSubject) :
    Except SDError (CredentialSubject × List String) :=
  match createDisclosuresLoop digestFn hashAlg (claimValues.zip salts) with
  | .error e => .error e
  | .ok (ds, hs) =>
      let names := claimValues.map Prod.fst
      let stripped := removeKeysFromObject subject names
      .ok (defineProperty stripped "_sd" (.vstrArr (jsSortStrings hs)), ds)

/-- `sdJwt.split('~')` over the character list: always at least one part,
empty parts preserved. -/
def splitTilde : List Char → List (List Char)
  | [] => [[]]
  | c :: rest =>
      if c = '~' then [] :: splitTilde rest
      else
        match splitTilde rest with
        | [] => [[c]]
        | p :: ps => (c :: p) :: ps

/-- The filter inside `discloseClaims`: parse every disclosure (a
malformed one throws out of the whole call) and keep those whose name
(`parsed[DisclosureArray.NAME]`, i.e. `parsed[1]`) is in `claims`.
JS `includes` uses strict equality, so a non-string name never matches. -/
def filterDisclosures (claims : List String) :
    List String → Except SDError (List String)
  | [] => .ok []
  | d :: rest =>
      match parseDisclosure d with
      | .error e => .error e
      | .ok parsed =>
          let keep := match parsed[1]? with
            | some (.vstr s) => claims.contains s
            | _ => false
          match filterDisclosures claims rest with
          | .error e => .error e
          | .ok ds => .ok (if keep then d :: ds else ds)

/-- `disclosures.join("~")`. -/
def joinTilde : List String → String
  | [] => ""
  | [d] => d
  | d :: rest => d ++ "~" ++ joinTilde rest

/-- `discloseClaims(sdJwt, claims)`: split on `~`, require at least one
disclosure segment, filter, and reassemble as
`JWS.concat("~" + disclosures.join("~"))`. -/
def discloseClaims (sdJwt : String) (claims : List String) :
    Except SDError String :=
  let parts := (splitTilde sdJwt.data).map (fun l => (⟨l⟩ : String))
  if parts.length ≤ 1 then .error .noDisclosures
  else
    match filterDisclosures claims parts.tail with
    | .error e => .error e
    | .ok disclosures => .ok (parts.headI ++ "~" ++ joinTilde disclosures)

end SelectiveDisclosure

section CodecLemmas

open SelectiveDisclosure

/-- Every `Char`'s codepoint is a valid Unicode scalar value. -/
theorem isValidChar_toNat (c : Char) : Nat.isValidChar c.toNat := by
  have h := c.valid
  unfold UInt32.isValidChar at h
  exact h

theorem char_toNat_lt (c : Char) : c.toNat < 1114112 := by
  rcases isValidChar_toNat c with h | h
  · omega
  · exact h.2

/-- `Char.ofNat` of a valid scalar keeps the codepoint. -/
theorem toNat_ofNat_valid {n : Nat} (h : Nat.isValidChar n) :
    (Char.ofNat n).toNat = n := by
  unfold Char.ofNat
  rw [dif_pos h]
  rfl

/-- The base64url alphabet decodes back to the sextet. -/
theorem b64Dec_b64Char {n : Nat} (h : n < 64) : b64Dec (b64Char n) = some n := by
  have hall : ∀ m, m < 64 → b64Dec (b64Char m) = some m := by decide
  exact hall n h

/-- Unpadded base64url decoding inverts encoding on byte lists. -/
theorem b64url_roundtrip : ∀ bs : List Nat, (∀ b ∈ bs, b < 256) →
    b64urlDecode (b64urlEncode bs) = some bs
  | [], _ => rfl
  | [a], h => by
      have ha : a < 256 := h a (by simp)
      simp only [b64urlEncode, b64urlDecode,
        b64Dec_b64Char (show a / 4 < 64 by omega),
        b64Dec_b64Char (show a % 4 * 16 < 64 by omega), Option.some_bind, Option.bind]
      have heq : a / 4 * 4 + a % 4 * 16 / 16 = a := by omega
      show some [a / 4 * 4 + a % 4 * 16 / 16] = some [a]
      rw [heq]
  | [a, b], h => by
      have ha : a < 256 := h a (by simp)
      have hb : b < 256 := h b (by simp)
      simp only [b64urlEncode, b64urlDecode,
        b64Dec_b64Char (show a / 4 < 64 by omega),
        b64Dec_b64Char (show a % 4 * 16 + b / 16 < 64 by omega),
        b64Dec_b64Char (show b % 16 * 4 < 64 by omega), Option.some_bind, Option.bind]
      have h1 : a / 4 * 4 + (a % 4 * 16 + b / 16) / 16 = a := by omega
      have h2 : (a % 4 * 16 + b / 16) % 16 * 16 + b % 16 * 4 / 4 = b := by omega
      show some [a / 4 * 4 + (a % 4 * 16 + b / 16) / 16,
        (a % 4 * 16 + b / 16) % 16 * 16 + b % 16 * 4 / 4] = some [a, b]
      rw [h1, h2]
  | a :: b :: c :: rest, h => by
      have ha : a < 256 := h a (by simp)
      have hb : b < 256 := h b (by simp)
      have hc : c < 256 := h c (by simp)
      have ih := b64url_roundtrip rest
        (fun x hx => h x (by simp [hx]))
      simp only [b64urlEncode, b64urlDecode,
        b64Dec_b64Char (show a / 4 < 64 by omega),
        b64Dec_b64Char (show a % 4 * 16 + b / 16 < 64 by omega),
        b64Dec_b64Char (show b % 16 * 4 + c / 64 < 64 by omega),
        b64Dec_b64Char (show c % 64 < 64 by omega), Option.some_bind, Option.bind, ih]
      have h1 : a / 4 * 4 + (a % 4 * 16 + b / 16) / 16 = a := by omega
      have h2 : (a % 4 * 16 + b / 16) % 16 * 16 + (b % 16 * 4 + c / 64) / 4 = b := by
        omega
      have h3 : (b % 16 * 4 + c / 64) % 4 * 64 + c % 64 = c := by omega
      show some ((a / 4 * 4 + (a % 4 * 16 + b / 16) / 16) ::
        ((a % 4 * 16 + b / 16) % 16 * 16 + (b % 16 * 4 + c / 64) / 4) ::
        ((b % 16 * 4 + c / 64) % 4 * 64 + c % 64) :: rest) =
        some (a :: b :: c :: rest)
      rw [h1, h2, h3]

/-- UTF-8 bytes are bytes. -/
theorem utf8Char_bytes (c : Char) : ∀ b ∈ utf8Char c, b < 256 := by
  have hlt := char_toNat_lt c
  intro b hb
  unfold utf8Char at hb
  dsimp only at hb
  split_ifs at hb with h1 h2 h3 <;>
    simp only [List.mem_cons, List.not_mem_nil, or_false] at hb <;> omega

theorem utf8Encode_bytes (s : List Char) : ∀ b ∈ utf8Encode s, b < 256 := by
  intro b hb
  rw [utf8Encode, List.mem_flatMap] at hb
  obtain ⟨c, -, hmem⟩ := hb
  exact utf8Char_bytes c b hmem

/-- No character UTF-8-encodes to the empty byte string. -/
theorem utf8Char_ne_nil (c : Char) : utf8Char c ≠ [] := by
  unfold utf8Char
  dsimp only
  split_ifs <;> simp

/-- `utf8DecodeStep` undoes `utf8Char` at the front of a stream. -/
theorem utf8DecodeStep_char (c : Char) (bs : List Nat) :
    utf8DecodeStep (utf8Char c ++ bs) = some (c, bs) := by
  have hlt := char_toNat_lt c
  unfold utf8Char
  dsimp only
  by_cases h1 : c.toNat < 0x80
  · rw [if_pos h1]
    show utf8DecodeStep (c.toNat :: bs) = _
    unfold utf8DecodeStep
    dsimp only
    rw [if_pos h1, Char.ofNat_toNat]
  · rw [if_neg h1]
    by_cases h2 : c.toNat < 0x800
    · rw [if_pos h2]
      show utf8DecodeStep
        ((0xC0 + c.toNat / 64) :: (0x80 + c.toNat % 64) :: bs) = _
      unfold utf8DecodeStep
      dsimp only
      rw [if_neg (by omega), if_pos (by constructor <;> omega),
        if_pos (by constructor <;> omega)]
      have heq : (0xC0 + c.toNat / 64 - 0xC0) * 64 + (0x80 + c.toNat % 64 - 0x80)
          = c.toNat := by omega
      rw [heq, Char.ofNat_toNat]
    · rw [if_neg h2]
      by_cases h3 : c.toNat < 0x10000
      · rw [if_pos h3]
        show utf8DecodeStep ((0xE0 + c.toNat / 4096) ::
          (0x80 + c.toNat / 64 % 64) :: (0x80 + c.toNat % 64) :: bs) = _
        unfold utf8DecodeStep
        dsimp only
        rw [if_neg (by omega), if_neg (by omega),
          if_pos (by constructor <;> omega),
          if_pos (by refine ⟨⟨?_, ?_⟩, ?_, ?_⟩ <;> omega)]
        have heq : (0xE0 + c.toNat / 4096 - 0xE0) * 4096 +
            (0x80 + c.toNat / 64 % 64 - 0x80) * 64 +
            (0x80 + c.toNat % 64 - 0x80) = c.toNat := by omega
        rw [heq, Char.ofNat_toNat]
      · rw [if_neg h3]
        show utf8DecodeStep ((0xF0 + c.toNat / 262144) ::
          (0x80 + c.toNat / 4096 % 64) :: (0x80 + c.toNat / 64 % 64) ::
          (0x80 + c.toNat % 64) :: bs) = _
        unfold utf8DecodeStep
        dsimp only
        rw [if_neg (by omega), if_neg (by omega), if_neg (by omega),
          if_pos (by constructor <;> omega),
          if_pos (by refine ⟨⟨?_, ?_⟩, ⟨?_, ?_⟩, ?_, ?_⟩ <;> omega)]
        have heq : (0xF0 + c.toNat / 262144 - 0xF0) * 262144 +
            (0x80 + c.toNat / 4096 % 64 - 0x80) * 4096 +
            (0x80 + c.toNat / 64 % 64 - 0x80) * 64 +
            (0x80 + c.toNat % 64 - 0x80) = c.toNat := by omega
        rw [heq, Char.ofNat_toNat]

/-- The decode loop inverts the encoder given enough fuel. -/
theorem utf8DecodeAux_encode : ∀ (s : List Char) (fuel : Nat),
    s.length ≤ fuel → utf8DecodeAux fuel (utf8Encode s) = some s := by
  intro s
  induction s with
  | nil =>
      intro fuel _
      show utf8DecodeAux fuel [] = some []
      cases fuel <;> rfl
  | cons c cs ih =>
      intro fuel hfuel
      cases fuel with
      | zero => simp at hfuel
      | succ f =>
          have henc : utf8Encode (c :: cs) = utf8Char c ++ utf8Encode cs := by
            simp [utf8Encode]
          obtain ⟨b, bs2, hb⟩ : ∃ b bs2, utf8Char c = b :: bs2 := by
            rcases hchar : utf8Char c with _ | ⟨b, bs2⟩
            · exact absurd hchar (utf8Char_ne_nil c)
            · exact ⟨b, bs2, rfl⟩
          rw [henc, hb]
          show utf8DecodeAux (f + 1) (b :: (bs2 ++ utf8Encode cs)) = _
          rw [utf8DecodeAux]
          have hstep := utf8DecodeStep_char c (utf8Encode cs)
          rw [hb] at hstep
          show (match utf8DecodeStep (b :: (bs2 ++ utf8Encode cs)) with
            | none => none
            | some (c, rest2) =>
                (utf8DecodeAux f rest2).map (fun cs => c :: cs)) = _
          rw [List.cons_append] at hstep
          rw [hstep]
          dsimp only
          rw [ih f (by simpa using hfuel)]
          rfl

/-- UTF-8 decoding inverts encoding. -/
theorem utf8_roundtrip (s : List Char) : utf8Decode (utf8Encode s) = some s := by
  have hlen : s.length ≤ (utf8Encode s).length := by
    induction s with
    | nil => simp [utf8Encode]
    | cons c cs ih =>
        have h1 : 1 ≤ (utf8Char c).length := by
          rcases hchar : utf8Char c with _ | ⟨b, bs2⟩
          · exact absurd hchar (utf8Char_ne_nil c)
          · simp
        simp only [utf8Encode, List.flatMap_cons, List.length_append,
          List.length_cons] at *
        omega
  exact utf8DecodeAux_encode s (utf8Encode s).length hlen

/-- Hex digits written by the escaper are read back by the parser. -/
theorem hexVal_hexDigit {n : Nat} (h : n < 16) : hexVal (hexDigit n) = some n := by
  have hall : ∀ m, m < 16 → hexVal (hexDigit m) = some m := by decide
  exact hall n h

theorem parseEscape_quote (tail : List Char) :
    parseEscape (Char.ofNat 34 :: tail) = some (Char.ofNat 34, tail) := rfl

theorem parseEscape_backslash (tail : List Char) :
    parseEscape (Char.ofNat 92 :: tail) = some (Char.ofNat 92, tail) := rfl

theorem parseEscape_b (tail : List Char) :
    parseEscape ('b' :: tail) = some (Char.ofNat 8, tail) := rfl

theorem parseEscape_t (tail : List Char) :
    parseEscape ('t' :: tail) = some (Char.ofNat 9, tail) := rfl

theorem parseEscape_n (tail : List Char) :
    parseEscape ('n' :: tail) = some (Char.ofNat 10, tail) := rfl

theorem parseEscape_f (tail : List Char) :
    parseEscape ('f' :: tail) = some (Char.ofNat 12, tail) := rfl

theorem parseEscape_r (tail : List Char) :
    parseEscape ('r' :: tail) = some (Char.ofNat 13, tail) := rfl

theorem parseEscape_u (a b : Char) (tail : List Char) :
    parseEscape ('u' :: '0' :: '0' :: a :: b :: tail) =
    (do
      let d1 ← hexVal '0'
      let d2 ← hexVal '0'
      let d3 ← hexVal a
      let d4 ← hexVal b
      let n := ((d1 * 16 + d2) * 16 + d3) * 16 + d4
      if Nat.isValidChar n then some (Char.ofNat n, tail) else none) := rfl

/-- One unfolding of the string-body loop on positive fuel and a cons. -/
theorem parseStringBodyAux_cons (fuel : Nat) (c : Char) (rest : List Char) :
    parseStringBodyAux (fuel + 1) (c :: rest) =
    (if c = Char.ofNat 34 then some ([], rest)
      else if c = Char.ofNat 92 then
        match parseEscape rest with
        | none => none
        | some (u, rest2) =>
            (parseStringBodyAux fuel rest2).map (fun p => (u :: p.1, p.2))
      else if c.toNat < 32 then none
      else (parseStringBodyAux fuel rest).map (fun p => (c :: p.1, p.2))) := by
  rw [parseStringBodyAux]

set_option maxHeartbeats 2000000 in
/-- The string-body parser undoes `JSON.stringify`'s escaping. -/
theorem parseStringBodyAux_escape : ∀ (s : List Char) (fuel : Nat)
    (rest : List Char), s.length + 1 ≤ fuel →
    parseStringBodyAux fuel (s.flatMap escapeChar ++ (Char.ofNat 34 :: rest)) =
      some (s, rest) := by
  intro s
  induction s with
  | nil =>
      intro fuel rest hfuel
      cases fuel with
      | zero => omega
      | succ f =>
          show parseStringBodyAux (f + 1) (Char.ofNat 34 :: rest) = _
          rw [parseStringBodyAux_cons, if_pos rfl]
  | cons c cs ih =>
      intro fuel rest hfuel
      cases fuel with
      | zero => simp at hfuel
      | succ f =>
          have hih := ih f rest (by simp at hfuel ⊢; omega)
          have hq : (Char.ofNat 34).toNat = 34 := rfl
          have hbs : (Char.ofNat 92).toNat = 92 := rfl
          simp only [List.flatMap_cons, List.append_assoc]
          unfold escapeChar
          split_ifs with h1 h2 h3 h4 h5 h6 h7 h8
          · subst h1
            show parseStringBodyAux (f + 1) (Char.ofNat 92 :: Char.ofNat 34 ::
              (cs.flatMap escapeChar ++ (Char.ofNat 34 :: rest))) = _
            rw [parseStringBodyAux_cons, if_neg (by decide), if_pos rfl,
              parseEscape_quote]
            dsimp only
            rw [hih]
            rfl
          · subst h2
            show parseStringBodyAux (f + 1) (Char.ofNat 92 :: Char.ofNat 92 ::
              (cs.flatMap escapeChar ++ (Char.ofNat 34 :: rest))) = _
            rw [parseStringBodyAux_cons, if_neg (by decide), if_pos rfl,
              parseEscape_backslash]
            dsimp only
            rw [hih]
            rfl
          · show parseStringBodyAux (f + 1) (Char.ofNat 92 :: 'b' ::
              (cs.flatMap escapeChar ++ (Char.ofNat 34 :: rest))) = _
            rw [parseStringBodyAux_cons, if_neg (by decide), if_pos rfl,
              parseEscape_b]
            dsimp only
            rw [hih]
            have : Char.ofNat 8 = c := by
              rw [← Char.ofNat_toNat c, h3]
            rw [this]
            rfl
          · show parseStringBodyAux (f + 1) (Char.ofNat 92 :: 't' ::
              (cs.flatMap escapeChar ++ (Char.ofNat 34 :: rest))) = _
            rw [parseStringBodyAux_cons, if_neg (by decide), if_pos rfl,
              parseEscape_t]
            dsimp only
            rw [hih]
            have : Char.ofNat 9 = c := by
              rw [← Char.ofNat_toNat c, h4]
            rw [this]
            rfl
          · show parseStringBodyAux (f + 1) (Char.ofNat 92 :: 'n' ::
              (cs.flatMap escapeChar ++ (Char.ofNat 34 :: rest))) = _
            rw [parseStringBodyAux_cons, if_neg (by decide), if_pos rfl,
              parseEscape_n]
            dsimp only
            rw [hih]
            have : Char.ofNat 10 = c := by
              rw [← Char.ofNat_toNat c, h5]
            rw [this]
            rfl
          · show parseStringBodyAux (f + 1) (Char.ofNat 92 :: 'f' ::
              (cs.flatMap escapeChar ++ (Char.ofNat 34 :: rest))) = _
            rw [parseStringBodyAux_cons, if_neg (by decide), if_pos rfl,
              parseEscape_f]
            dsimp only
            rw [hih]
            have : Char.ofNat 12 = c := by
              rw [← Char.ofNat_toNat c, h6]
            rw [this]
            rfl
          · show parseStringBodyAux (f + 1) (Char.ofNat 92 :: 'r' ::
              (cs.flatMap escapeChar ++ (Char.ofNat 34 :: rest))) = _
            rw [parseStringBodyAux_cons, if_neg (by decide), if_pos rfl,
              parseEscape_r]
            dsimp only
            rw [hih]
            have : Char.ofNat 13 = c := by
              rw [← Char.ofNat_toNat c, h7]
            rw [this]
            rfl
          · show parseStringBodyAux (f + 1) (Char.ofNat 92 :: 'u' :: '0' :: '0' ::
              hexDigit (c.toNat / 16) :: hexDigit (c.toNat % 16) ::
              (cs.flatMap escapeChar ++ (Char.ofNat 34 :: rest))) = _
            rw [parseStringBodyAux_cons, if_neg (by decide), if_pos rfl,
              parseEscape_u,
              show hexVal '0' = some 0 from rfl,
              hexVal_hexDigit (show c.toNat / 16 < 16 by omega),
              hexVal_hexDigit (show c.toNat % 16 < 16 by omega)]
            show (match (if Nat.isValidChar (((0 * 16 + 0) * 16 +
                c.toNat / 16) * 16 + c.toNat % 16) then
                some (Char.ofNat (((0 * 16 + 0) * 16 + c.toNat / 16) * 16 +
                    c.toNat % 16),
                  cs.flatMap escapeChar ++ Char.ofNat 34 :: rest)
                else none) with
              | none => none
              | some (u, rest2) =>
                  Option.map (fun p => (u :: p.1, p.2))
                    (parseStringBodyAux f rest2)) =
              some (c :: cs, rest)
            have hn : ((0 * 16 + 0) * 16 + c.toNat / 16) * 16 + c.toNat % 16
                = c.toNat := by omega
            rw [hn, if_pos (Or.inl (by omega) : Nat.isValidChar c.toNat)]
            dsimp only
            rw [hih, Char.ofNat_toNat]
            rfl
          · show parseStringBodyAux (f + 1) (c ::
              (cs.flatMap escapeChar ++ (Char.ofNat 34 :: rest))) = _
            rw [parseStringBodyAux_cons,
              if_neg (fun he => h1 (by rw [he])),
              if_neg (fun he => h2 (by rw [he])),
              if_neg (by omega)]
            rw [hih]
            rfl

/-- Digits emitted by `natDigitsAux` are digit characters. -/
theorem natDigitsAux_digits : ∀ (fuel n : Nat),
    ∀ c ∈ natDigitsAux fuel n, isDigitChar c = true
  | 0, _ => by simp [natDigitsAux]
  | fuel + 1, n => by
      intro c hc
      unfold natDigitsAux at hc
      split_ifs at hc with h
      · simp only [List.mem_cons, List.not_mem_nil, or_false] at hc
        subst hc
        simp only [isDigitChar,
          toNat_ofNat_valid (Or.inl (show 48 + n < 55296 by omega))]
        exact decide_eq_true (by omega)
      · rw [List.mem_append] at hc
        rcases hc with hc | hc
        · exact natDigitsAux_digits fuel (n / 10) c hc
        · simp only [List.mem_cons, List.not_mem_nil, or_false] at hc
          subst hc
          simp only [isDigitChar,
            toNat_ofNat_valid (Or.inl (show 48 + n % 10 < 55296 by omega))]
          exact decide_eq_true (by omega)

theorem natDigitsAux_ne_nil (fuel n : Nat) (h : fuel ≠ 0) :
    natDigitsAux fuel n ≠ [] := by
  cases fuel with
  | zero => omega
  | succ f =>
      unfold natDigitsAux
      split_ifs <;> simp

/-- Folding the decimal accumulator over emitted digits recovers the
number. -/
theorem foldl_natDigitsAux : ∀ (fuel n acc : Nat), n < 10 ^ fuel →
    List.foldl (fun a c => a * 10 + (c.toNat - 48)) acc (natDigitsAux fuel n) =
      acc * 10 ^ (natDigitsAux fuel n).length + n
  | 0, n, acc, h => by
      simp only [natDigitsAux]
      simp at h ⊢
      omega
  | fuel + 1, n, acc, h => by
      unfold natDigitsAux
      split_ifs with hn
      · simp only [List.foldl_cons, List.foldl_nil, List.length_cons,
          List.length_nil,
          toNat_ofNat_valid (Or.inl (show 48 + n < 55296 by omega))]
        simp only [pow_succ, pow_zero, one_mul]
        omega
      · have hdiv : n / 10 < 10 ^ fuel := by
          have := Nat.pow_succ 10 fuel
          omega
        rw [List.foldl_append, foldl_natDigitsAux fuel (n / 10) acc hdiv]
        simp only [List.foldl_cons, List.foldl_nil, List.length_append,
          List.length_cons, List.length_nil,
          toNat_ofNat_valid (Or.inl (show 48 + n % 10 < 55296 by omega))]
        have hx : 48 + n % 10 - 48 = n % 10 := by omega
        rw [hx]
        have hexp : (10:Nat) ^ ((natDigitsAux fuel (n / 10)).length + (0 + 1)) =
            10 ^ (natDigitsAux fuel (n / 10)).length * 10 := by
          rw [Nat.zero_add, pow_succ]
        rw [hexp]
        have hmod : 10 * (n / 10) + n % 10 = n := by omega
        calc (acc * 10 ^ (natDigitsAux fuel (n / 10)).length + n / 10) * 10 +
              n % 10
            = acc * (10 ^ (natDigitsAux fuel (n / 10)).length * 10) +
              (10 * (n / 10) + n % 10) := by ring
          _ = acc * (10 ^ (natDigitsAux fuel (n / 10)).length * 10) + n := by
              rw [hmod]

theorem parseNatNum_natDigits (n : Nat) : parseNatNum (natDigits n) = n := by
  have hlt : n < 10 ^ (n + 1) :=
    calc n < 10 ^ n := Nat.lt_pow_self (by norm_num) n
    _ ≤ 10 ^ (n + 1) := Nat.pow_le_pow_right (by norm_num) (Nat.le_succ n)
  unfold parseNatNum natDigits
  rw [foldl_natDigitsAux (n + 1) n 0 hlt]
  simp

/-- `takeWhile`/`dropWhile` split an all-digit prefix at the first
non-digit. -/
theorem takeWhile_digit_prefix : ∀ (ds : List Char) (r : Char)
    (cs : List Char), (∀ c ∈ ds, isDigitChar c = true) →
    isDigitChar r = false →
    (ds ++ r :: cs).takeWhile isDigitChar = ds ∧
    (ds ++ r :: cs).dropWhile isDigitChar = r :: cs
  | [], r, cs, _, hr => by
      constructor <;> simp [List.takeWhile_cons, List.dropWhile_cons, hr]
  | d :: ds, r, cs, hall, hr => by
      have hd : isDigitChar d = true := hall d (by simp)
      have ih := takeWhile_digit_prefix ds r cs
        (fun c hc => hall c (by simp [hc])) hr
      constructor <;>
        simp [List.takeWhile_cons, List.dropWhile_cons, hd, ih.1, ih.2]

/-- A digit character differs from any character outside the digit
range. -/
theorem digit_ne {c : Char} (h : isDigitChar c = true) {d : Char}
    (hd : d.toNat < 48 ∨ 57 < d.toNat) : c ≠ d := by
  intro he
  subst he
  rw [isDigitChar, decide_eq_true_eq] at h
  omega

/-- Parsing the printed integer (the `vnum` branch of
`jsonStringifyValue`) recovers it, up to the first non-digit. -/
theorem parseNumber_print (n : Int) (r : Char) (cs : List Char)
    (hr : isDigitChar r = false) (hrm : r ≠ '-') :
    parseNumber ((if n < 0 then '-' :: natDigits (-n).toNat
      else natDigits n.toNat) ++ r :: cs) = some (n, r :: cs) := by
  by_cases hneg : n < 0
  · rw [if_pos hneg]
    show parseNumber ('-' :: (natDigits (-n).toNat ++ r :: cs)) = _
    unfold parseNumber
    dsimp only
    rw [if_pos rfl]
    obtain ⟨htake, hdrop⟩ := takeWhile_digit_prefix (natDigits (-n).toNat) r cs
      (fun c hc => natDigitsAux_digits _ _ c hc) hr
    rw [htake, hdrop]
    rw [if_neg (by
      simp only [List.isEmpty_iff]
      exact natDigitsAux_ne_nil _ _ (by omega))]
    rw [parseNatNum_natDigits]
    have hcast : ((-n).toNat : Int) = -n := Int.toNat_of_nonneg (by omega)
    rw [hcast]
    simp
  · rw [if_neg hneg]
    obtain ⟨d, ds, hds⟩ : ∃ d ds, natDigits n.toNat = d :: ds := by
      rcases hd : natDigits n.toNat with _ | ⟨d, ds⟩
      · exact absurd hd (natDigitsAux_ne_nil _ _ (by omega))
      · exact ⟨d, ds, rfl⟩
    have hmem : d ∈ natDigits n.toNat := by rw [hds]; simp
    have hddig : isDigitChar d = true := natDigitsAux_digits _ _ d hmem
    rw [hds]
    show parseNumber (d :: (ds ++ r :: cs)) = _
    unfold parseNumber
    dsimp only
    rw [if_neg (digit_ne hddig (by left; decide))]
    have hall : ∀ c ∈ natDigits n.toNat, isDigitChar c = true :=
      fun c hc => natDigitsAux_digits _ _ c hc
    rw [hds] at hall
    obtain ⟨htake, hdrop⟩ := takeWhile_digit_prefix (d :: ds) r cs hall hr
    rw [show d :: (ds ++ r :: cs) = (d :: ds) ++ r :: cs from rfl, htake, hdrop]
    rw [if_neg (by simp)]
    rw [← hds, parseNatNum_natDigits]
    have hcast : (n.toNat : Int) = n := Int.toNat_of_nonneg (by omega)
    rw [hcast]

/-- Escaping only lengthens a string. -/
theorem flatMap_escape_length (s : List Char) :
    s.length ≤ (s.flatMap escapeChar).length := by
  induction s with
  | nil => simp
  | cons c cs ih =>
      have h1 : 1 ≤ (escapeChar c).length := by
        unfold escapeChar
        split_ifs <;> simp
      simp only [List.flatMap_cons, List.length_append, List.length_cons]
      omega

/-- No value prints as the empty string. -/
theorem jsonStringifyValue_ne_nil (v : JsValue) : jsonStringifyValue v ≠ [] := by
  cases v with
  | vstr s => simp [jsonStringifyValue, quoteString]
  | vnum n =>
      simp only [jsonStringifyValue]
      split_ifs
      · simp
      · exact natDigitsAux_ne_nil _ _ (by omega)
  | vbool b => cases b <;> simp [jsonStringifyValue]
  | vnull => simp [jsonStringifyValue]
  | vstrArr es => simp [jsonStringifyValue]
  | vobj t => simp [jsonStringifyValue]

/-- `parseValue` undoes `jsonStringifyValue` on primitives when a
separator follows. -/
theorem parseValue_print (v : JsValue) (hv : isPrimitive v = true) (d : Char)
    (hd : d = ',' ∨ d = ']') (cs : List Char) :
    parseValue (jsonStringifyValue v ++ d :: cs) = some (v, d :: cs) := by
  have hddig : isDigitChar d = false := by rcases hd with rfl | rfl <;> decide
  have hdm : d ≠ '-' := by rcases hd with rfl | rfl <;> decide
  cases v with
  | vstr s =>
      have hre : jsonStringifyValue (JsValue.vstr s) ++ d :: cs =
          Char.ofNat 34 :: (s.data.flatMap escapeChar ++
            (Char.ofNat 34 :: (d :: cs))) := by
        simp [jsonStringifyValue, quoteString]
      rw [hre]
      unfold parseValue
      dsimp only
      rw [if_pos rfl]
      unfold parseStringBody
      have hfuel : s.data.length + 1 ≤
          (s.data.flatMap escapeChar ++ (Char.ofNat 34 :: d :: cs)).length := by
        have := flatMap_escape_length s.data
        simp only [List.length_append, List.length_cons]
        omega
      rw [parseStringBodyAux_escape s.data _ (d :: cs) hfuel]
      rfl
  | vnum n =>
      simp only [jsonStringifyValue]
      by_cases hneg : n < 0
      · rw [if_pos hneg]
        show parseValue ('-' :: (natDigits (-n).toNat ++ d :: cs)) = _
        unfold parseValue
        dsimp only
        rw [if_neg (by decide), if_neg (by decide), if_neg (by decide),
          if_neg (by decide)]
        have hp := parseNumber_print n d cs hddig hdm
        rw [if_pos hneg] at hp
        rw [show ('-' :: natDigits (-n).toNat) ++ d :: cs =
          '-' :: (natDigits (-n).toNat ++ d :: cs) from rfl] at hp
        rw [hp]
        rfl
      · rw [if_neg hneg]
        obtain ⟨d0, ds0, hds⟩ : ∃ d0 ds0, natDigits n.toNat = d0 :: ds0 := by
          rcases hx : natDigits n.toNat with _ | ⟨d0, ds0⟩
          · exact absurd hx (natDigitsAux_ne_nil _ _ (by omega))
          · exact ⟨d0, ds0, rfl⟩
        have hmem : d0 ∈ natDigits n.toNat := by rw [hds]; simp
        have hd0 : isDigitChar d0 = true := natDigitsAux_digits _ _ d0 hmem
        rw [hds]
        show parseValue (d0 :: (ds0 ++ d :: cs)) = _
        unfold parseValue
        dsimp only
        rw [if_neg (digit_ne hd0 (by left; decide)),
          if_neg (digit_ne hd0 (by right; decide)),
          if_neg (digit_ne hd0 (by right; decide)),
          if_neg (digit_ne hd0 (by right; decide))]
        have hp := parseNumber_print n d cs hddig hdm
        rw [if_neg hneg, hds] at hp
        rw [show (d0 :: ds0) ++ d :: cs = d0 :: (ds0 ++ d :: cs) from rfl] at hp
        rw [hp]
        rfl
  | vbool b => cases b <;> rfl
  | vnull => rfl
  | vstrArr es => simp [isPrimitive] at hv
  | vobj t => simp [isPrimitive] at hv

/-- `parseElems` undoes the comma-joined printing of a nonempty list of
primitives, given fuel at least the element count. -/
theorem parseElems_print : ∀ (vs : List JsValue) (v : JsValue) (fuel : Nat)
    (cs : List Char), (∀ x ∈ v :: vs, isPrimitive x = true) →
    vs.length + 1 ≤ fuel →
    parseElems fuel (joinComma ((v :: vs).map jsonStringifyValue) ++
      (']' :: cs)) = some (v :: vs, cs)
  | [], v, fuel, cs, hall, hfuel => by
      cases fuel with
      | zero => omega
      | succ f =>
          have hre : joinComma ([v].map jsonStringifyValue) ++ (']' :: cs) =
              jsonStringifyValue v ++ ']' :: cs := by
            simp [joinComma]
          rw [hre, parseElems,
            parseValue_print v (hall v (by simp)) ']' (Or.inr rfl) cs]
          rfl
  | v2 :: vs', v, fuel, cs, hall, hfuel => by
      cases fuel with
      | zero => simp at hfuel
      | succ f =>
          have hre : joinComma ((v :: v2 :: vs').map jsonStringifyValue) ++
              (']' :: cs) =
              jsonStringifyValue v ++ (',' ::
                (joinComma ((v2 :: vs').map jsonStringifyValue) ++
                  (']' :: cs))) := by
            simp [joinComma, List.append_assoc]
          rw [hre, parseElems,
            parseValue_print v (hall v (by simp)) ',' (Or.inl rfl)]
          show (parseElems f (joinComma ((v2 :: vs').map jsonStringifyValue) ++
              (']' :: cs))).bind (fun p => some (v :: p.1, p.2)) =
            some (v :: v2 :: vs', cs)
          rw [parseElems_print vs' v2 f cs
            (fun x hx => hall x (by simp at hx ⊢; tauto))
            (by simp at hfuel ⊢; omega)]
          rfl

/-- The printed list is at least as long as the value list. -/
theorem joinComma_length_ge : ∀ (vs : List JsValue) (v : JsValue),
    (v :: vs).length ≤ (joinComma ((v :: vs).map jsonStringifyValue)).length
  | [], v => by
      have h := jsonStringifyValue_ne_nil v
      simp only [joinComma, List.map_cons, List.map_nil, List.length_cons,
        List.length_nil]
      cases hx : jsonStringifyValue v with
      | nil => exact absurd hx h
      | cons a l => simp [joinComma]
  | v2 :: vs', v => by
      have ih := joinComma_length_ge vs' v2
      have h := jsonStringifyValue_ne_nil v
      have h1 : 1 ≤ (jsonStringifyValue v).length := by
        cases hx : jsonStringifyValue v with
        | nil => exact absurd hx h
        | cons a l => simp
      show (v :: v2 :: vs').length ≤
        (jsonStringifyValue v ++ ',' ::
          joinComma ((v2 :: vs').map jsonStringifyValue)).length
      simp only [List.length_cons, List.length_append] at ih ⊢
      omega

/-- The head character of a printed primitive is never `]`. -/
theorem print_head_ne_rbracket (v : JsValue) (hv : isPrimitive v = true)
    {h0 : Char} {t0 : List Char} (hds : jsonStringifyValue v = h0 :: t0) :
    h0 ≠ ']' := by
  cases v with
  | vstr s =>
      simp only [jsonStringifyValue, quoteString] at hds
      rw [List.cons.injEq] at hds
      rw [← hds.1]
      decide
  | vnum n =>
      simp only [jsonStringifyValue] at hds
      split_ifs at hds with hneg
      · rw [List.cons.injEq] at hds
        rw [← hds.1]
        decide
      · have hmem : h0 ∈ natDigits n.toNat := by rw [hds]; simp
        have hd0 : isDigitChar h0 = true := natDigitsAux_digits _ _ h0 hmem
        exact digit_ne hd0 (by right; decide)
  | vbool b =>
      cases b <;> simp only [jsonStringifyValue] at hds <;>
        rw [List.cons.injEq] at hds <;> rw [← hds.1] <;> decide
  | vnull =>
      simp only [jsonStringifyValue] at hds
      rw [List.cons.injEq] at hds
      rw [← hds.1]
      decide
  | vstrArr es => simp [isPrimitive] at hv
  | vobj t => simp [isPrimitive] at hv

/-- `jsonParseArr` undoes `jsonStringifyArr` on lists of primitives. -/
theorem jsonParseArr_print (vs : List JsValue)
    (hall : ∀ v ∈ vs, isPrimitive v = true) :
    jsonParseArr (jsonStringifyArr vs) = some vs := by
  cases vs with
  | nil => rfl
  | cons v vs' =>
      obtain ⟨t, ht⟩ : ∃ t, joinComma ((v :: vs').map jsonStringifyValue) =
          jsonStringifyValue v ++ t := by
        cases vs' with
        | nil => exact ⟨[], by simp [joinComma]⟩
        | cons v2 vs'' =>
            exact ⟨',' :: joinComma ((v2 :: vs'').map jsonStringifyValue),
              by simp [joinComma]⟩
      obtain ⟨h0, t0, hds⟩ : ∃ h0 t0, jsonStringifyValue v = h0 :: t0 := by
        rcases hx : jsonStringifyValue v with _ | ⟨h0, t0⟩
        · exact absurd hx (jsonStringifyValue_ne_nil v)
        · exact ⟨h0, t0, rfl⟩
      have hne : h0 ≠ ']' :=
        print_head_ne_rbracket v (hall v (by simp)) hds
      have hcons : joinComma ((v :: vs').map jsonStringifyValue) ++ [']'] =
          h0 :: (t0 ++ t ++ [']']) := by
        rw [ht, hds]
        simp [List.append_assoc]
      unfold jsonParseArr jsonStringifyArr parseJsonArray
      dsimp only
      rw [if_pos rfl, hcons]
      dsimp only
      rw [if_neg hne]
      have hback : h0 :: (t0 ++ t ++ [']']) =
          joinComma ((v :: vs').map jsonStringifyValue) ++ (']' :: []) := by
        rw [hcons]
      rw [hback]
      have hfuel : vs'.length + 1 ≤
          (joinComma ((v :: vs').map jsonStringifyValue) ++ (']' : Char) ::
            ([] : List Char)).length := by
        have := joinComma_length_ge vs' v
        simp only [List.length_append, List.length_cons, List.length_nil] at *
        omega
      rw [parseElems_print vs' v _ [] hall hfuel]

/-- `parseDisclosure ∘ encodeDisclosure` is the identity on 3-element
arrays of primitive values. -/
theorem parseDisclosure_encode (vs : List JsValue)
    (hall : ∀ v ∈ vs, isPrimitive v = true) (hlen : vs.length = 3) :
    parseDisclosure (encodeDisclosure vs) = .ok vs := by
  unfold parseDisclosure encodeDisclosure
  rw [show (⟨b64urlEncode (utf8Encode (jsonStringifyArr vs))⟩ : String).data =
      b64urlEncode (utf8Encode (jsonStringifyArr vs)) from rfl,
    b64url_roundtrip _ (utf8Encode_bytes _)]
  dsimp only
  rw [utf8_roundtrip]
  dsimp only
  rw [jsonParseArr_print vs hall]
  dsimp only
  rw [hlen]
  rfl

end CodecLemmas

section DisclosureCodecClaims

open SelectiveDisclosure

/-- **C7.** Disclosure codec round-trip: for every salt string, claim name
and primitive JSON value, parsing the encoded disclosure returns exactly
the original `[salt, name, value]` triple. -/
theorem C7_parse_encode_roundtrip (salt name : String) (v : JsValue)
    (hv : isPrimitive v = true) :
    parseDisclosure (encodeDisclosure [.vstr salt, .vstr name, v]) =
      .ok [.vstr salt, .vstr name, v] := by
  apply parseDisclosure_encode
  · intro x hx
    simp only [List.mem_cons, List.not_mem_nil, or_false] at hx
    rcases hx with rfl | rfl | rfl
    · rfl
    · rfl
    · exact hv
  · rfl

/-- Witness for C7 at a base64url-rendered 16-byte salt, a name needing
escaping, and the primitive value `-42`. -/
theorem C7_witness :
    isPrimitive (JsValue.vnum (-42)) = true ∧
    parseDisclosure (encodeDisclosure
      [.vstr "AAECAwQFBgcICQoLDA0ODw", .vstr "claim \"name\"", .vnum (-42)]) =
      .ok [.vstr "AAECAwQFBgcICQoLDA0ODw", .vstr "claim \"name\"",
        .vnum (-42)] :=
  ⟨rfl, C7_parse_encode_roundtrip "AAECAwQFBgcICQoLDA0ODw" "claim \"name\""
    (JsValue.vnum (-42)) rfl⟩

end DisclosureCodecClaims

section IssuanceLemmas

open SelectiveDisclosure

/-- Every error of the issuance loop is `nestedNotSupported`. -/
theorem loop_error_kind (digestFn : String → List Nat → List Nat)
    (hashAlg : String) : ∀ (l : List ((String × JsValue) × List Nat))
    (e : SDError), createDisclosuresLoop digestFn hashAlg l = .error e →
    e = .nestedNotSupported
  | [], e, h => by simp [createDisclosuresLoop] at h
  | ((name, value), salt) :: rest, e, h => by
      unfold createDisclosuresLoop at h
      split_ifs at h with hobj
      · exact (Except.error.inj h).symm
      · rcases hrest : createDisclosuresLoop digestFn hashAlg rest with e' | p
        · rw [hrest] at h
          have h2 : (Except.error e' :
              Except SDError (List String × List String)) = Except.error e := h
          rw [← Except.error.inj h2]
          exact loop_error_kind digestFn hashAlg rest e' hrest
        · rw [hrest] at h
          obtain ⟨ds, hs⟩ := p
          simp at h

/-- On all-primitive input the loop succeeds with the expected disclosure
and digest lists. -/
theorem loop_ok_of_prim (digestFn : String → List Nat → List Nat)
    (hashAlg : String) : ∀ (l : List ((String × JsValue) × List Nat)),
    (∀ p ∈ l, typeofObject p.1.2 = false) →
    createDisclosuresLoop digestFn hashAlg l =
      .ok (l.map (fun p => encodeDisclosure
          [JsValue.vstr ⟨b64urlEncode p.2⟩, JsValue.vstr p.1.1, p.1.2]),
        l.map (fun p => hashDisclosure digestFn hashAlg (encodeDisclosure
          [JsValue.vstr ⟨b64urlEncode p.2⟩, JsValue.vstr p.1.1, p.1.2])))
  | [], _ => rfl
  | ((name, value), salt) :: rest, hall => by
      have hhd : typeofObject value = false :=
        hall ((name, value), salt) (by simp)
      have ih := loop_ok_of_prim digestFn hashAlg rest
        (fun p hp => hall p (by simp [hp]))
      unfold createDisclosuresLoop
      rw [if_neg (by rw [hhd]; simp), ih]
      rfl

/-- The loop fails with `nestedNotSupported` exactly when some claim value
has JS typeof `object`. -/
theorem loop_error_iff (digestFn : String → List Nat → List Nat)
    (hashAlg : String) : ∀ (l : List ((String × JsValue) × List Nat)),
    (createDisclosuresLoop digestFn hashAlg l = .error .nestedNotSupported ↔
      ∃ p ∈ l, typeofObject p.1.2 = true)
  | [] => by simp [createDisclosuresLoop]
  | ((name, value), salt) :: rest => by
      constructor
      · intro h
        unfold createDisclosuresLoop at h
        split_ifs at h with hobj
        · exact ⟨((name, value), salt), by simp, hobj⟩
        · rcases hrest : createDisclosuresLoop digestFn hashAlg rest
            with e' | p
          · have he' : e' = .nestedNotSupported :=
              loop_error_kind digestFn hashAlg rest e' hrest
            subst he'
            obtain ⟨p, hp, hty⟩ :=
              (loop_error_iff digestFn hashAlg rest).mp hrest
            exact ⟨p, by simp [hp], hty⟩
          · rw [hrest] at h
            obtain ⟨ds, hs⟩ := p
            simp at h
      · intro ⟨p, hp, hty⟩
        unfold createDisclosuresLoop
        simp only [List.mem_cons] at hp
        rcases hp with rfl | hp
        · rw [if_pos (by rw [hty])]
        · by_cases hobj : typeofObject value = true
          · rw [if_pos (by rw [hobj])]
          · rw [if_neg (by simp at hobj; rw [hobj]; simp)]
            rw [(loop_error_iff digestFn hashAlg rest).mpr ⟨p, hp, hty⟩]

/-- A successful loop's digests are the hashes of its disclosures. -/
theorem loop_ok_digest (digestFn : String → List Nat → List Nat)
    (hashAlg : String) : ∀ (l : List ((String × JsValue) × List Nat))
    (ds hs : List String),
    createDisclosuresLoop digestFn hashAlg l = .ok (ds, hs) →
    hs = ds.map (hashDisclosure digestFn hashAlg)
  | [], ds, hs, h => by
      simp only [createDisclosuresLoop, Except.ok.injEq, Prod.mk.injEq] at h
      rw [← h.1, ← h.2]
      rfl
  | ((name, value), salt) :: rest, ds, hs, h => by
      unfold createDisclosuresLoop at h
      split_ifs at h with hobj
      rcases hrest : createDisclosuresLoop digestFn hashAlg rest with e' | p
      · rw [hrest] at h
        simp at h
      · rw [hrest] at h
        obtain ⟨ds', hs'⟩ := p
        simp only [Except.ok.injEq, Prod.mk.injEq] at h
        obtain ⟨hds, hhs⟩ := h
        rw [← hds, ← hhs, List.map_cons,
          loop_ok_digest digestFn hashAlg rest ds' hs' hrest]

/-- Sortedness, permutation and length facts for the JS string sort. -/
theorem jsSortStrings_sorted (l : List String) :
    List.Sorted (fun a b => a ≤ b) (jsSortStrings l) :=
  List.sorted_insertionSort (fun a b => a ≤ b) l

theorem jsSortStrings_perm (l : List String) :
    List.Perm (jsSortStrings l) l :=
  List.perm_insertionSort (fun a b => a ≤ b) l

theorem jsSortStrings_length (l : List String) :
    (jsSortStrings l).length = l.length :=
  (List.perm_insertionSort (fun a b => a ≤ b) l).length_eq

/-- Unfolding `lookupKey` on a cons. -/
theorem lookupKey_cons (p : String × JsValue) (l : CredentialSubject)
    (k : String) :
    lookupKey (p :: l) k = if p.1 = k then some p.2 else lookupKey l k := by
  unfold lookupKey
  by_cases hp : p.1 = k
  · rw [if_pos hp, List.find?_cons_of_pos _ (by simp [hp])]
    rfl
  · rw [if_neg hp, List.find?_cons_of_neg _ (by simp [hp])]

/-- Removing a listed key makes it unresolvable. -/
theorem lookupKey_removeKeys_mem : ∀ (obj : CredentialSubject)
    (names : List String) (k : String), names.contains k = true →
    lookupKey (removeKeysFromObject obj names) k = none
  | [], _, _, _ => rfl
  | (k', v') :: rest, names, k, hk => by
      have ih := lookupKey_removeKeys_mem rest names k hk
      unfold removeKeysFromObject at ih ⊢
      rw [List.filter_cons]
      by_cases hc : names.contains k' = true
      · rw [if_neg (by rw [hc]; simp)]
        exact ih
      · have hcf : names.contains k' = false := by
          rcases hx : names.contains k' with _ | _
          · rfl
          · exact absurd hx hc
        rw [if_pos (by rw [hcf]; simp)]
        have hne : (k', v').1 ≠ k := by
          intro he
          dsimp only at he
          subst he
          rw [hk] at hcf
          simp at hcf
        rw [lookupKey_cons, if_neg hne]
        exact ih

/-- Removing other keys leaves a lookup unchanged. -/
theorem lookupKey_removeKeys_not_mem : ∀ (obj : CredentialSubject)
    (names : List String) (k : String), names.contains k = false →
    lookupKey (removeKeysFromObject obj names) k = lookupKey obj k
  | [], _, _, _ => rfl
  | (k', v') :: rest, names, k, hk => by
      have ih := lookupKey_removeKeys_not_mem rest names k hk
      unfold removeKeysFromObject at ih ⊢
      rw [List.filter_cons]
      by_cases hc : names.contains k' = true
      · rw [if_neg (by rw [hc]; simp)]
        have hne : (k', v').1 ≠ k := by
          intro he
          dsimp only at he
          subst he
          rw [hk] at hc
          simp at hc
        rw [lookupKey_cons (k', v'), if_neg hne]
        exact ih
      · have hcf : names.contains k' = false := by
          rcases hx : names.contains k' with _ | _
          · rfl
          · exact absurd hx hc
        rw [if_pos (by rw [hcf]; simp), lookupKey_cons, lookupKey_cons]
        by_cases hp : (k', v').1 = k
        · rw [if_pos hp, if_pos hp]
        · rw [if_neg hp, if_neg hp]
          exact ih

/-- In-place update branch of `defineProperty`: the key resolves to the
new value when it occurs. -/
theorem lookupKey_mapdef_self : ∀ (obj : CredentialSubject) (k : String)
    (v : JsValue), obj.any (fun p => decide (p.1 = k)) = true →
    lookupKey (obj.map (fun p => if p.1 = k then (k, v) else p)) k = some v
  | [], k, v, h => by simp at h
  | p :: rest, k, v, h => by
      rw [List.map_cons]
      by_cases hp : p.1 = k
      · rw [if_pos hp, lookupKey_cons, if_pos rfl]
      · rw [if_neg hp, lookupKey_cons, if_neg hp]
        have hrest : rest.any (fun p => decide (p.1 = k)) = true := by
          simp only [List.any_cons, Bool.or_eq_true, decide_eq_true_eq] at h
          rcases h with h | h
          · exact absurd h hp
          · exact h
        exact lookupKey_mapdef_self rest k v hrest

/-- Append branch of `defineProperty`: the appended pair is found. -/
theorem lookupKey_append_self : ∀ (obj : CredentialSubject) (k : String)
    (v : JsValue), obj.any (fun p => decide (p.1 = k)) = false →
    lookupKey (obj ++ [(k, v)]) k = some v
  | [], k, v, _ => by
      rw [List.nil_append, lookupKey_cons, if_pos rfl]
  | p :: rest, k, v, h => by
      simp only [List.any_cons, Bool.or_eq_false_iff, decide_eq_false_iff_not]
        at h
      rw [List.cons_append, lookupKey_cons, if_neg h.1]
      exact lookupKey_append_self rest k v h.2

/-- `defineProperty` makes the defined key resolve to the new value. -/
theorem lookupKey_defineProperty_self (obj : CredentialSubject) (k : String)
    (v : JsValue) : lookupKey (defineProperty obj k v) k = some v := by
  unfold defineProperty
  by_cases hany : obj.any (fun p => decide (p.1 = k)) = true
  · rw [if_pos (by rw [hany])]
    exact lookupKey_mapdef_self obj k v hany
  · have hf : obj.any (fun p => decide (p.1 = k)) = false := by
      rcases hx : obj.any (fun p => decide (p.1 = k)) with _ | _
      · rfl
      · exact absurd hx hany
    rw [if_neg (by rw [hf]; simp)]
    exact lookupKey_append_self obj k v hf

/-- In-place update branch: other keys are untouched. -/
theorem lookupKey_mapdef_ne : ∀ (obj : CredentialSubject) (k : String)
    (v : JsValue) (k' : String), k' ≠ k →
    lookupKey (obj.map (fun p => if p.1 = k then (k, v) else p)) k' =
      lookupKey obj k'
  | [], _, _, _, _ => rfl
  | p :: rest, k, v, k', h => by
      rw [List.map_cons]
      by_cases hp : p.1 = k
      · rw [if_pos hp, lookupKey_cons, lookupKey_cons,
          if_neg (show ((k, v) : String × JsValue).1 ≠ k' from Ne.symm h),
          if_neg (by rw [hp]; exact Ne.symm h)]
        exact lookupKey_mapdef_ne rest k v k' h
      · rw [if_neg hp, lookupKey_cons, lookupKey_cons]
        by_cases hp' : p.1 = k'
        · rw [if_pos hp', if_pos hp']
        · rw [if_neg hp', if_neg hp']
          exact lookupKey_mapdef_ne rest k v k' h

/-- Append branch: other keys are untouched. -/
theorem lookupKey_append_ne : ∀ (obj : CredentialSubject) (k : String)
    (v : JsValue) (k' : String), k' ≠ k →
    lookupKey (obj ++ [(k, v)]) k' = lookupKey obj k'
  | [], k, v, k', h => by
      rw [List.nil_append, lookupKey_cons,
        if_neg (show ((k, v) : String × JsValue).1 ≠ k' from Ne.symm h)]
  | p :: rest, k, v, k', h => by
      rw [List.cons_append, lookupKey_cons, lookupKey_cons]
      by_cases hp' : p.1 = k'
      · rw [if_pos hp', if_pos hp']
      · rw [if_neg hp', if_neg hp']
        exact lookupKey_append_ne rest k v k' h

/-- `defineProperty` leaves other keys' lookups unchanged. -/
theorem lookupKey_defineProperty_ne (obj : CredentialSubject) (k : String)
    (v : JsValue) (k' : String) (h : k' ≠ k) :
    lookupKey (defineProperty obj k v) k' = lookupKey obj k' := by
  unfold defineProperty
  split_ifs with hany
  · exact lookupKey_mapdef_ne obj k v k' h
  · exact lookupKey_append_ne obj k v k' h

/-- A successful loop produces one disclosure and one digest per input
entry. -/
theorem loop_ok_length (digestFn : String → List Nat → List Nat)
    (hashAlg : String) : ∀ (l : List ((String × JsValue) × List Nat))
    (ds hs : List String),
    createDisclosuresLoop digestFn hashAlg l = .ok (ds, hs) →
    ds.length = l.length ∧ hs.length = l.length
  | [], ds, hs, h => by
      simp only [createDisclosuresLoop, Except.ok.injEq, Prod.mk.injEq] at h
      rw [← h.1, ← h.2]
      simp
  | ((name, value), salt) :: rest, ds, hs, h => by
      unfold createDisclosuresLoop at h
      split_ifs at h with hobj
      rcases hrest : createDisclosuresLoop digestFn hashAlg rest with e' | p
      · rw [hrest] at h
        simp at h
      · rw [hrest] at h
        obtain ⟨ds', hs'⟩ := p
        simp only [Except.ok.injEq, Prod.mk.injEq] at h
        obtain ⟨h1, h2⟩ := loop_ok_length digestFn hashAlg rest ds' hs' hrest
        rw [← h.1, ← h.2]
        simp [h1, h2]

/-- A key that occurs in the object resolves to some value. -/
theorem lookupKey_ne_none_of_mem : ∀ (obj : CredentialSubject) (k : String),
    k ∈ obj.map Prod.fst → lookupKey obj k ≠ none
  | [], k, h => by simp at h
  | p :: rest, k, h => by
      rw [lookupKey_cons]
      by_cases hp : p.1 = k
      · rw [if_pos hp]
        simp
      · rw [if_neg hp]
        refine lookupKey_ne_none_of_mem rest k ?_
        simp only [List.map_cons, List.mem_cons] at h
        rcases h with h | h
        · exact absurd h.symm hp
        · exact h

end IssuanceLemmas

section IssuanceClaims

open SelectiveDisclosure

/-- **C3 counterexample.** In JavaScript `typeof null === 'object'`, so a
hidden claim whose value is the *primitive* `null` raises
`NestedNotSupported`, refuting the claim that issuance succeeds for every
primitive hidden value. -/
theorem C3_counterexample :
    isPrimitive JsValue.vnull = true ∧
    createDisclosures (fun _ _ => [0]) "ES256K" [("a", JsValue.vnull)] [[0]]
      [] = .error .nestedNotSupported :=
  ⟨rfl, rfl⟩

/-- **C3 (amended).** `createDisclosures` raises `NestedNotSupported` iff
some hidden claim value has JS `typeof` `'object'` — an object, an array,
or `null`; when every hidden value is a string, number or boolean, the
call succeeds and produces exactly one disclosure per hidden claim, in
order. -/
theorem C3_nested_iff_typeof_object
    (digestFn : String → List Nat → List Nat) (hashAlg : String)
    (claimValues : CredentialSubject) (salts : List (List Nat))
    (subject : CredentialSubject)
    (hlen : salts.length = claimValues.length) :
    (createDisclosures digestFn hashAlg claimValues salts subject =
        .error .nestedNotSupported ↔
      ∃ p ∈ claimValues, typeofObject p.2 = true) ∧
    ((∀ p ∈ claimValues, typeofObject p.2 = false) →
      createDisclosures digestFn hashAlg claimValues salts subject =
        .ok (defineProperty
            (removeKeysFromObject subject (claimValues.map Prod.fst)) "_sd"
            (.vstrArr (jsSortStrings ((claimValues.zip salts).map (fun p =>
              hashDisclosure digestFn hashAlg (encodeDisclosure
                [JsValue.vstr ⟨b64urlEncode p.2⟩, JsValue.vstr p.1.1,
                  p.1.2]))))),
          (claimValues.zip salts).map (fun p => encodeDisclosure
            [JsValue.vstr ⟨b64urlEncode p.2⟩, JsValue.vstr p.1.1, p.1.2]))) := by
  have hzip : ∀ q ∈ claimValues.zip salts, q.1 ∈ claimValues := by
    intro q hq
    exact (List.mem_zip hq).1
  have hzip2 : ∀ p ∈ claimValues, ∃ q ∈ claimValues.zip salts, q.1 = p := by
    intro p hp
    have hmap : List.map Prod.fst (claimValues.zip salts) = claimValues :=
      List.map_fst_zip claimValues salts (by omega)
    rw [← hmap] at hp
    obtain ⟨q, hq, hq2⟩ := List.mem_map.mp hp
    exact ⟨q, hq, hq2⟩
  constructor
  · constructor
    · intro h
      unfold createDisclosures at h
      rcases hloop : createDisclosuresLoop digestFn hashAlg
          (claimValues.zip salts) with e | p
      · rw [hloop] at h
        have he : e = .nestedNotSupported := Except.error.inj h
        subst he
        obtain ⟨q, hq, hty⟩ :=
          (loop_error_iff digestFn hashAlg _).mp hloop
        exact ⟨q.1, hzip q hq, hty⟩
      · rw [hloop] at h
        obtain ⟨ds0, hs0⟩ := p
        simp at h
    · intro ⟨p, hp, hty⟩
      obtain ⟨q, hq, hq1⟩ := hzip2 p hp
      unfold createDisclosures
      rw [(loop_error_iff digestFn hashAlg _).mpr ⟨q, hq, by rw [hq1]; exact hty⟩]
  · intro hall
    unfold createDisclosures
    rw [loop_ok_of_prim digestFn hashAlg _
      (fun q hq => hall q.1 (hzip q hq))]

/-- Witness for the amended C3 at one string-valued hidden claim. -/
theorem C3_witness :
    (createDisclosures (fun _ _ => [0]) "ES256K" [("a", JsValue.vstr "x")]
        [[0]] [] = .error .nestedNotSupported ↔
      ∃ p ∈ [("a", JsValue.vstr "x")], typeofObject p.2 = true) ∧
    ((∀ p ∈ [("a", JsValue.vstr "x")], typeofObject p.2 = false) →
      createDisclosures (fun _ _ => [0]) "ES256K" [("a", JsValue.vstr "x")]
        [[0]] [] =
        .ok (defineProperty (removeKeysFromObject []
            ([("a", JsValue.vstr "x")].map Prod.fst)) "_sd"
            (.vstrArr (jsSortStrings (([("a", JsValue.vstr "x")].zip
              [[0]]).map (fun p =>
              hashDisclosure (fun _ _ => [0]) "ES256K" (encodeDisclosure
                [JsValue.vstr ⟨b64urlEncode p.2⟩, JsValue.vstr p.1.1,
                  p.1.2]))))),
          (([("a", JsValue.vstr "x")].zip [[0]]).map (fun p =>
            encodeDisclosure [JsValue.vstr ⟨b64urlEncode p.2⟩,
              JsValue.vstr p.1.1, p.1.2])))) :=
  C3_nested_iff_typeof_object (fun _ _ => [0]) "ES256K"
    [("a", JsValue.vstr "x")] [[0]] [] rfl

/-- **C5.** Every disclosure in a successful issuance digests (via the
backend digest of the encoded disclosure's bytes, base64url-rendered) into
the `_sd` array installed in the updated credential subject. -/
theorem C5_digest_membership (digestFn : String → List Nat → List Nat)
    (hashAlg : String) (claimValues : CredentialSubject)
    (salts : List (List Nat)) (subject subject' : CredentialSubject)
    (ds : List String)
    (hok : createDisclosures digestFn hashAlg claimValues salts subject =
      .ok (subject', ds)) :
    ∃ digests, lookupKey subject' "_sd" = some (.vstrArr digests) ∧
      ∀ d ∈ ds, hashDisclosure digestFn hashAlg d ∈ digests := by
  unfold createDisclosures at hok
  rcases hloop : createDisclosuresLoop digestFn hashAlg
      (claimValues.zip salts) with e | p
  · rw [hloop] at hok
    simp at hok
  · rw [hloop] at hok
    obtain ⟨ds0, hs0⟩ := p
    have hok2 : (Except.ok (defineProperty
        (removeKeysFromObject subject (claimValues.map Prod.fst)) "_sd"
        (.vstrArr (jsSortStrings hs0)), ds0) :
        Except SDError (CredentialSubject × List String)) =
        .ok (subject', ds) := hok
    have hinj := Except.ok.inj hok2
    have hsubj := congrArg Prod.fst hinj
    have hds := congrArg Prod.snd hinj
    dsimp only at hsubj hds
    refine ⟨jsSortStrings hs0, ?_, ?_⟩
    · rw [← hsubj]
      exact lookupKey_defineProperty_self _ _ _
    · intro d hd
      have hmem : hashDisclosure digestFn hashAlg d ∈ hs0 := by
        rw [loop_ok_digest digestFn hashAlg _ ds0 hs0 hloop]
        exact List.mem_map_of_mem _ (by rw [hds]; exact hd)
      exact ((jsSortStrings_perm hs0).mem_iff).mpr hmem

/-- Witness for C5 at one hidden claim and a constant digest backend. -/
theorem C5_witness :
    ∃ digests,
      lookupKey [("_sd", JsValue.vstrArr ["AA"])] "_sd" =
        some (.vstrArr digests) ∧
      ∀ d ∈ [encodeDisclosure [JsValue.vstr ⟨b64urlEncode [0]⟩,
        JsValue.vstr "a", JsValue.vstr "x"]],
        hashDisclosure (fun _ _ => [0]) "ES256K" d ∈ digests :=
  C5_digest_membership (fun _ _ => [0]) "ES256K" [("a", JsValue.vstr "x")]
    [[0]] [] [("_sd", JsValue.vstrArr ["AA"])]
    [encodeDisclosure [JsValue.vstr ⟨b64urlEncode [0]⟩, JsValue.vstr "a",
      JsValue.vstr "x"]] rfl

/-- **C6 counterexample.** Hiding a claim literally named `_sd` leaves
`_sd` as a key afterwards (the digest array is installed under that very
name); and a non-hidden pre-existing `_sd` key is overwritten rather than
retained. -/
theorem C6_counterexample :
    (createDisclosures (fun _ _ => [0]) "ES256K"
        [("_sd", JsValue.vstr "x")] [[0]] [("_sd", JsValue.vstr "x")] =
        .ok ([("_sd", JsValue.vstrArr ["AA"])],
          [encodeDisclosure [JsValue.vstr ⟨b64urlEncode [0]⟩,
            JsValue.vstr "_sd", JsValue.vstr "x"]]) ∧
      lookupKey [("_sd", JsValue.vstrArr ["AA"])] "_sd" ≠ none) ∧
    (createDisclosures (fun _ _ => [0]) "ES256K"
        [("a", JsValue.vstr "y")] [[0]]
        [("_sd", JsValue.vstr "x"), ("a", JsValue.vstr "y")] =
        .ok ([("_sd", JsValue.vstrArr ["AA"])],
          [encodeDisclosure [JsValue.vstr ⟨b64urlEncode [0]⟩,
            JsValue.vstr "a", JsValue.vstr "y"]]) ∧
      lookupKey [("_sd", JsValue.vstrArr ["AA"])] "_sd" ≠
        some (JsValue.vstr "x")) := by
  refine ⟨⟨rfl, ?_⟩, rfl, ?_⟩ <;> decide

/-- **C6 (amended).** Provided `_sd` is neither a hidden claim name nor a
pre-existing subject key: after issuance `_sd` holds an ascending-sorted
digest array with one entry per hidden claim, no hidden claim name remains
a key of the subject, and every non-hidden key of the original subject
resolves unchanged. -/
theorem C6_sd_sorted_keys_removed_rest_kept
    (digestFn : String → List Nat → List Nat) (hashAlg : String)
    (claimValues : CredentialSubject) (salts : List (List Nat))
    (subject subject' : CredentialSubject) (ds : List String)
    (hlen : salts.length = claimValues.length)
    (hsd1 : (claimValues.map Prod.fst).contains "_sd" = false)
    (hsd2 : lookupKey subject "_sd" = none)
    (hok : createDisclosures digestFn hashAlg claimValues salts subject =
      .ok (subject', ds)) :
    (∃ digests, lookupKey subject' "_sd" = some (.vstrArr digests) ∧
      digests.length = claimValues.length ∧
      List.Sorted (fun a b => a ≤ b) digests) ∧
    (∀ name ∈ claimValues.map Prod.fst, lookupKey subject' name = none) ∧
    (∀ k ∈ subject.map Prod.fst, (claimValues.map Prod.fst).contains k = false →
      lookupKey subject' k = lookupKey subject k) := by
  unfold createDisclosures at hok
  rcases hloop : createDisclosuresLoop digestFn hashAlg
      (claimValues.zip salts) with e | p
  · rw [hloop] at hok
    simp at hok
  · rw [hloop] at hok
    obtain ⟨ds0, hs0⟩ := p
    have hok2 : (Except.ok (defineProperty
        (removeKeysFromObject subject (claimValues.map Prod.fst)) "_sd"
        (.vstrArr (jsSortStrings hs0)), ds0) :
        Except SDError (CredentialSubject × List String)) =
        .ok (subject', ds) := hok
    have hinj := Except.ok.inj hok2
    have hsubj := congrArg Prod.fst hinj
    dsimp only at hsubj
    refine ⟨⟨jsSortStrings hs0, ?_, ?_, jsSortStrings_sorted hs0⟩, ?_, ?_⟩
    · rw [← hsubj]
      exact lookupKey_defineProperty_self _ _ _
    · rw [jsSortStrings_length]
      have hlens := (loop_ok_length digestFn hashAlg _ ds0 hs0 hloop).2
      rw [hlens, List.length_zip]
      omega
    · intro name hname
      have hnsd : name ≠ "_sd" := by
        intro he
        subst he
        have h3 : (List.map Prod.fst claimValues).contains "_sd" = true :=
          List.elem_iff.mpr hname
        rw [hsd1] at h3
        simp at h3
      rw [← hsubj, lookupKey_defineProperty_ne _ _ _ _ hnsd,
        lookupKey_removeKeys_mem subject _ name (List.elem_iff.mpr hname)]
    · intro k hk hkf
      have hknsd : k ≠ "_sd" := by
        intro he
        subst he
        exact lookupKey_ne_none_of_mem subject _ hk hsd2
      rw [← hsubj, lookupKey_defineProperty_ne _ _ _ _ hknsd,
        lookupKey_removeKeys_not_mem subject _ k hkf]

/-- Witness for the amended C6 at one hidden claim beside one retained
key. -/
theorem C6_witness :
    (∃ digests,
      lookupKey [("b", JsValue.vnull), ("_sd", JsValue.vstrArr ["AA"])]
        "_sd" = some (.vstrArr digests) ∧
      digests.length = ([("a", JsValue.vstr "x")] :
        SelectiveDisclosure.CredentialSubject).length ∧
      List.Sorted (fun a b => a ≤ b) digests) ∧
    (∀ name ∈ ([("a", JsValue.vstr "x")] :
        SelectiveDisclosure.CredentialSubject).map Prod.fst,
      lookupKey [("b", JsValue.vnull), ("_sd", JsValue.vstrArr ["AA"])]
        name = none) ∧
    (∀ k ∈ ([("a", JsValue.vstr "x"), ("b", JsValue.vnull)] :
        SelectiveDisclosure.CredentialSubject).map Prod.fst,
      (([("a", JsValue.vstr "x")] :
        SelectiveDisclosure.CredentialSubject).map Prod.fst).contains k =
        false →
      lookupKey [("b", JsValue.vnull), ("_sd", JsValue.vstrArr ["AA"])] k =
        lookupKey [("a", JsValue.vstr "x"), ("b", JsValue.vnull)] k) :=
  C6_sd_sorted_keys_removed_rest_kept (fun _ _ => [0]) "ES256K"
    [("a", JsValue.vstr "x")] [[0]]
    [("a", JsValue.vstr "x"), ("b", JsValue.vnull)]
    [("b", JsValue.vnull), ("_sd", JsValue.vstrArr ["AA"])]
    [encodeDisclosure [JsValue.vstr ⟨b64urlEncode [0]⟩, JsValue.vstr "a",
      JsValue.vstr "x"]] rfl rfl rfl rfl

end IssuanceClaims

section PresentationLemmas

open SelectiveDisclosure

theorem splitTilde_ne_nil : ∀ l : List Char, splitTilde l ≠ []
  | [] => by simp [splitTilde]
  | c :: rest => by
      unfold splitTilde
      split_ifs
      · simp
      · rcases h : splitTilde rest with _ | ⟨p, ps⟩ <;> simp

/-- `split('~')` produces one more part than there are separators. -/
theorem splitTilde_length : ∀ l : List Char,
    (splitTilde l).length = l.count '~' + 1
  | [] => rfl
  | c :: rest => by
      unfold splitTilde
      by_cases hc : c = '~'
      · rw [if_pos hc, List.length_cons, splitTilde_length rest]
        have hcnt : (c :: rest).count '~' = rest.count '~' + 1 := by
          rw [List.count_cons]
          simp [hc]
        omega
      · rw [if_neg hc]
        have hcnt : (c :: rest).count '~' = rest.count '~' := by
          rw [List.count_cons]
          simp [hc]
        rcases h : splitTilde rest with _ | ⟨p, ps⟩
        · exact absurd h (splitTilde_ne_nil rest)
        · have hlen := splitTilde_length rest
          rw [h] at hlen
          simp only [List.length_cons] at hlen ⊢
          omega

/-- With an empty reveal set the filter keeps nothing, provided every
disclosure parses. -/
theorem filterDisclosures_nil_claims : ∀ l : List String,
    (∀ d ∈ l, ∃ parsed, parseDisclosure d = .ok parsed) →
    filterDisclosures [] l = .ok []
  | [], _ => rfl
  | d :: rest, h => by
      obtain ⟨parsed, hp⟩ := h d (by simp)
      unfold filterDisclosures
      rw [hp]
      dsimp only
      rw [filterDisclosures_nil_claims rest (fun x hx => h x (by simp [hx]))]
      rcases hv : parsed[1]? with _ | v
      · rfl
      · cases v <;> rfl

end PresentationLemmas

section PresentationClaims

open SelectiveDisclosure

/-- **C4 counterexample.** With an empty reveal set the output keeps a
trailing `~` (the early `return JWS` is commented out in the source):
`discloseClaims` returns `jws~`, not the bare `jws`. -/
theorem C4_counterexample :
    discloseClaims ("jws~" ++ encodeDisclosure
      [.vstr "cw", .vstr "n", .vstr "v"]) [] = .ok "jws~" ∧
    ("jws~" : String) ≠ "jws" :=
  ⟨rfl, by decide⟩

/-- **C4 (amended).** An input without `~` fails with `NoDisclosures`; an
input with at least one `~` whose tail segments all parse as disclosures,
disclosed with an empty reveal set, returns the JWS followed by a single
trailing `~` (not the bare JWS). -/
theorem C4_empty_reveal_and_no_tilde :
    (∀ (s : String) (claims : List String), s.data.count '~' = 0 →
      discloseClaims s claims = .error .noDisclosures) ∧
    (∀ s : String, 1 ≤ s.data.count '~' →
      (∀ p ∈ (splitTilde s.data).tail,
        ∃ parsed, parseDisclosure ⟨p⟩ = .ok parsed) →
      discloseClaims s [] = .ok (⟨(splitTilde s.data).headI⟩ ++ "~")) := by
  constructor
  · intro s claims hcount
    unfold discloseClaims
    rw [if_pos (by
      rw [List.length_map, splitTilde_length, hcount])]
  · intro s hcount hparse
    unfold discloseClaims
    rw [if_neg (by
      rw [List.length_map, splitTilde_length]
      omega)]
    obtain ⟨p, ps, hsplit⟩ : ∃ p ps, splitTilde s.data = p :: ps := by
      rcases hx : splitTilde s.data with _ | ⟨p, ps⟩
      · exact absurd hx (splitTilde_ne_nil s.data)
      · exact ⟨p, ps, rfl⟩
    rw [hsplit]
    have hfilters : filterDisclosures []
        ((List.map (fun l => (⟨l⟩ : String)) (p :: ps)).tail) = .ok [] := by
      rw [List.map_cons]
      apply filterDisclosures_nil_claims
      intro d hd
      simp only [List.tail_cons, List.mem_map] at hd
      obtain ⟨q, hq, hq2⟩ := hd
      subst hq2
      exact hparse q (by rw [hsplit]; exact hq)
    simp only [List.tail_cons] at hfilters ⊢
    rw [hfilters]
    have hstr : (⟨p⟩ : String) ++ "~" ++ joinTilde [] =
        (⟨p⟩ : String) ++ "~" := by
      rw [show joinTilde [] = "" from rfl, String.append_empty]
    show Except.ok ((⟨p⟩ : String) ++ "~" ++ joinTilde []) =
      Except.ok ((⟨p⟩ : String) ++ "~")
    rw [hstr]

/-- Witness for the amended C4: an input without `~` errors, and a
one-disclosure SD-JWT disclosed with no reveals keeps its trailing
tilde. -/
theorem C4_witness :
    discloseClaims "nodisclosures" ["x"] = .error .noDisclosures ∧
    discloseClaims ("jws~" ++ encodeDisclosure
      [.vstr "s0", .vstr "n0", .vstr "v0"]) [] =
      .ok (⟨(splitTilde ("jws~" ++ encodeDisclosure
        [.vstr "s0", .vstr "n0", .vstr "v0"]).data).headI⟩ ++ "~") := by
  constructor
  · exact C4_empty_reveal_and_no_tilde.1 "nodisclosures" ["x"] (by decide)
  · refine C4_empty_reveal_and_no_tilde.2 _ (by decide) ?_
    intro q hq
    have htail : (splitTilde ("jws~" ++ encodeDisclosure
        [JsValue.vstr "s0", JsValue.vstr "n0", JsValue.vstr "v0"]).data).tail =
        [(encodeDisclosure [JsValue.vstr "s0", JsValue.vstr "n0",
          JsValue.vstr "v0"]).data] := by decide
    rw [htail] at hq
    simp only [List.mem_cons, List.not_mem_nil, or_false] at hq
    subst hq
    exact ⟨[JsValue.vstr "s0", JsValue.vstr "n0", JsValue.vstr "v0"], rfl⟩

end PresentationClaims

end OnyxSSI
